import Mathlib

/-!
Verification of the GN&C mass / failure-probability core
(GNCCalculator in gnc.py of the ADORE evaluation examples).

The embedding below translates the Python source faithfully:

  * the static catalogs (class attributes mass and failure_rate) become
    string-keyed partial lookup functions; a missing key, which raises
    KeyError in Python, becomes an unknownType error;
  * calc_mass and calc_failure_rate become functions into
    Except GNCError _; probabilities are exact rationals;
  * the connection matrices built with numpy integer indexing become
    lists of boolean rows; numpy index semantics are preserved exactly:
    an index i with -n <= i < 0 resolves to unit n + i, and an index
    outside [-n, n) raises (IndexError), modelled as a danglingEdge
    error (resolveIdx);
  * the inner recursive closure _branch_failures becomes branch:
    itertools.product over per-unit pools ([False, True] for connected
    units, [False] for unconnected ones) becomes scenarios,
    the guard "i_rates > 0 and not any(ok_sources): continue" becomes
    retainedScenarios, the masked occurrence-probability product becomes
    occProb, the surviving-row column-OR becomes connectedTargets, and
    the boolean selection tgt_rates[connected_targets] becomes
    maskedRates;
  * np.log10 at the very end becomes Real.logb 10 on the exact rational.

The analysis layer (fullS and the lemmas about it) relates branch to an
unguarded sum over all scenarios, from which bounds, monotonicity in the
failure rates and antitonicity in the connectivity mask are proved.
-/

namespace GNC

/-! ## Component catalog (class attributes mass and failure_rate) -/

/-- Errors the translated code can raise: a type label absent from the
catalog dictionaries (KeyError in Python) or a connection index that
numpy cannot resolve (IndexError). -/
inductive GNCError where
  | unknownType : GNCError
  | danglingEdge : GNCError
deriving DecidableEq

/-- Sensor mass catalog: row mass of gnc.py with key S. -/
def massS (t : String) : Option ℚ :=
  if t = "A" then some 3 else if t = "B" then some 6 else if t = "C" then some 9 else none

/-- Computer mass catalog: row mass of gnc.py with key C. -/
def massC (t : String) : Option ℚ :=
  if t = "A" then some 3 else if t = "B" then some 5 else if t = "C" then some 10 else none

/-- Actuator mass catalog: row mass of gnc.py with key A. -/
def massA (t : String) : Option ℚ :=
  if t = "A" then some (7/2) else if t = "B" then some (11/2) else if t = "C" then some (19/2)
  else none

/-- Sensor failure-rate catalog: row failure_rate of gnc.py with key S. -/
def rateS (t : String) : Option ℚ :=
  if t = "A" then some (15/100000) else if t = "B" then some (1/10000)
  else if t = "C" then some (5/100000) else none

/-- Computer failure-rate catalog: row failure_rate of gnc.py with key C. -/
def rateC (t : String) : Option ℚ :=
  if t = "A" then some (1/10000) else if t = "B" then some (4/100000)
  else if t = "C" then some (2/100000) else none

/-- Actuator failure-rate catalog: row failure_rate of gnc.py with key A. -/
def rateA (t : String) : Option ℚ :=
  if t = "A" then some (8/100000) else if t = "B" then some (2/10000)
  else if t = "C" then some (1/10000) else none

/-- The labels present in every catalog dictionary. -/
def knownLabel (t : String) : Bool := t = "A" || t = "B" || t = "C"

/-- Looks up every label of a list in a catalog column, failing on the
first unknown one; this is the list comprehension
[rate[kind][type_] for type_ in types] of the source, whose KeyError is
the unknownType error. -/
def lookupAll (f : String → Option ℚ) : List String → Except GNCError (List ℚ)
  | [] => .ok []
  | t :: ts =>
    match f t with
    | none => .error .unknownType
    | some v =>
      match lookupAll f ts with
      | .error e => .error e
      | .ok vs => .ok (v :: vs)

/-! ## calc_mass -/

/-- Translation of GNCCalculator.calc_mass: sums the catalog masses of
all sensor, computer and (when present) actuator units. -/
def calc_mass (sensor_types computer_types : List String)
    (actuator_types : Option (List String)) : Except GNCError ℚ :=
  match lookupAll massS sensor_types with
  | .error e => .error e
  | .ok sm =>
    match lookupAll massC computer_types with
    | .error e => .error e
    | .ok cm =>
      match actuator_types with
      | none => .ok (sm.sum + cm.sum)
      | some aTypes =>
        match lookupAll massA aTypes with
        | .error e => .error e
        | .ok am => .ok (sm.sum + cm.sum + am.sum)

/-! ## Connection matrices (lines 64 to 70 of gnc.py) -/

/-- A connection matrix: one boolean row per source unit, one column per
target unit; true marks an edge (matrix entries 0 and 1 in the source). -/
abbrev Mat := List (List Bool)

/-- Resolution of a Python / numpy integer index against an axis of
length n: indices 0 <= i < n denote unit i, indices -n <= i < 0 denote
unit n + i, anything else raises IndexError (modelled by none). -/
def resolveIdx (n : ℕ) (i : ℤ) : Option ℕ :=
  if 0 ≤ i ∧ i < (n : ℤ) then some i.toNat
  else if -(n : ℤ) ≤ i ∧ i < 0 then some (i + (n : ℤ)).toNat
  else none

/-- The assignment matrix[i_src, i_tgt] = 1 of the source. -/
def setEntry (m : Mat) (i j : ℕ) : Mat :=
  m.set i ((m.getD i []).set j true)

/-- The edge loop of the source: starting from a zero matrix accumulator,
set one entry per edge, raising danglingEdge at the first edge either of
whose indices does not resolve. -/
def buildMatrixAux (nSrc nTgt : ℕ) : List (ℤ × ℤ) → Mat → Except GNCError Mat
  | [], m => .ok m
  | e :: es, m =>
    match resolveIdx nSrc e.1, resolveIdx nTgt e.2 with
    | some i, some j => buildMatrixAux nSrc nTgt es (setEntry m i j)
    | _, _ => .error .danglingEdge

/-- Builds the connection matrix of one transition from its edge list,
starting from np.zeros((nSrc, nTgt)). -/
def buildMatrix (nSrc nTgt : ℕ) (edges : List (ℤ × ℤ)) : Except GNCError Mat :=
  buildMatrixAux nSrc nTgt edges (List.replicate nSrc (List.replicate nTgt false))

/-! ## The recursive failure enumeration (_branch_failures) -/

/-- All survived / failed assignments enumerated by itertools.product in
the source: position i ranges over [False, True] when the unit is marked
connected, and only over [False] when it is not (a disconnected unit can
never be a survivor). The order matches itertools.product: the first
scenario is the all-failed one. -/
def scenarios : List Bool → List (List Bool)
  | [] => [[]]
  | m :: ms =>
    (if m then [false, true] else [false]).flatMap fun b => (scenarios ms).map fun ok => b :: ok

/-- The scenarios the loop body actually processes: the guard
"if i_rates > 0 and not any(ok_sources): continue" drops the all-failed
assignment in every non-root call. -/
def retainedScenarios (isRoot : Bool) (mask : List Bool) : List (List Bool) :=
  (scenarios mask).filter fun ok => isRoot || ok.any id

/-- Occurrence probability of a scenario: the product, over the units
marked in the connectivity mask, of the failure rate for a failed unit
and one minus the failure rate for a surviving unit (lines 88 to 95 of
the source; unmasked units contribute no factor). -/
def occProb : List ℚ → List Bool → List Bool → ℚ
  | r :: rs, m :: ms, b :: bs => (if m then (if b then 1 - r else r) else 1) * occProb rs ms bs
  | _, _, _ => 1

/-- Which target units remain connected: target j is connected iff some
surviving source row has a true in column j (lines 97 to 101 of the
source, the any over the transposed survivor rows). -/
def connectedTargets (nTgt : ℕ) : Mat → List Bool → List Bool
  | row :: mat, b :: ok =>
    if b then List.zipWith (fun x y => x || y) row (connectedTargets nTgt mat ok)
    else connectedTargets nTgt mat ok
  | _, _ => List.replicate nTgt false

/-- Boolean selection tgt_rates[connected_targets] of the source. -/
def maskedRates (rates : List ℚ) (conn : List Bool) : List ℚ :=
  ((rates.zip conn).filter fun p => p.2).map fun p => p.1

/-- Translation of the inner closure _branch_failures. The level list
carries, for the current and all deeper transitions, the connection
matrix and the target-stage failure rates; calc_downstream of the source
is the non-emptiness of the tail. The empty-level case cannot be reached
from calc_failure_rate (there is always at least one transition). -/
def branch (isRoot : Bool) (rs : List ℚ) (mask : List Bool) : List (Mat × List ℚ) → ℚ
  | [] => 0
  | (mat, tgtRates) :: rest =>
    ((retainedScenarios isRoot mask).map fun ok =>
      let occ := occProb rs mask ok
      let conn := connectedTargets tgtRates.length mat ok
      let tgtFail := maskedRates tgtRates conn
      if tgtFail.isEmpty then occ
      else occ * tgtFail.prod + (if rest.isEmpty then 0 else occ * branch false tgtRates conn rest)).sum

/-- The contribution one retained scenario adds to the running total of
a call of branch: the whole occurrence probability when no target is
reachable, and otherwise the all-reachable-targets-fail term plus, when
a further transition exists, the recursive downstream term. -/
def contrib (rs : List ℚ) (mask : List Bool) (mat : Mat) (tgtRates : List ℚ)
    (rest : List (Mat × List ℚ)) (ok : List Bool) : ℚ :=
  let occ := occProb rs mask ok
  let conn := connectedTargets tgtRates.length mat ok
  let tgtFail := maskedRates tgtRates conn
  if tgtFail.isEmpty then occ
  else occ * tgtFail.prod + (if rest.isEmpty then 0 else occ * branch false tgtRates conn rest)

theorem branch_cons (isRoot : Bool) (rs : List ℚ) (mask : List Bool) (mat : Mat)
    (tr : List ℚ) (rest : List (Mat × List ℚ)) :
    branch isRoot rs mask ((mat, tr) :: rest) =
      ((retainedScenarios isRoot mask).map (contrib rs mask mat tr rest)).sum := rfl

/-! ## calc_failure_rate -/

/-- The failure probability computed inside calc_failure_rate, i.e.
everything of the source function up to but excluding the final
np.log10: catalog lookups (lines 55 to 62), connection matrices (lines
64 to 70) and the root call _branch_failures() (line 122). -/
def failure_prob (sensor_types computer_types : List String) (conns : List (ℤ × ℤ))
    (actuator_types : Option (List String)) (act_conns : List (ℤ × ℤ)) :
    Except GNCError ℚ :=
  match lookupAll rateS sensor_types with
  | .error e => .error e
  | .ok sRates =>
    match lookupAll rateC computer_types with
    | .error e => .error e
    | .ok cRates =>
      match actuator_types with
      | none =>
        match buildMatrix sRates.length cRates.length conns with
        | .error e => .error e
        | .ok m1 =>
          .ok (branch true sRates (List.replicate sRates.length true) [(m1, cRates)])
      | some aTypes =>
        match lookupAll rateA aTypes with
        | .error e => .error e
        | .ok aRates =>
          match buildMatrix sRates.length cRates.length conns with
          | .error e => .error e
          | .ok m1 =>
            match buildMatrix cRates.length aRates.length act_conns with
            | .error e => .error e
            | .ok m2 =>
              .ok (branch true sRates (List.replicate sRates.length true)
                    [(m1, cRates), (m2, aRates)])

/-- Translation of GNCCalculator.calc_failure_rate: the failure
probability of failure_prob followed by np.log10 (line 123). The log is
applied unconditionally, exactly as in the source. In the source
act_conns defaults to None and is only read when actuator_types is
given; here it is a plain list that is ignored when actuator_types is
none, matching every reachable behavior of the source. -/
noncomputable def calc_failure_rate (sensor_types computer_types : List String)
    (conns : List (ℤ × ℤ)) (actuator_types : Option (List String))
    (act_conns : List (ℤ × ℤ)) : Except GNCError ℝ :=
  (failure_prob sensor_types computer_types conns actuator_types act_conns).map
    fun p => Real.logb 10 (p : ℝ)

/-! ## Analysis layer: the unguarded scenario sum fullS

fullS is not a translation of source code; it is the mathematical tool
used to reason about branch: the same sum as branch but over all
scenarios (no double-counting guard), with the base case of the level
recursion being the all-masked-units-fail product. branch is proved
equal to fullS (at the root) and to fullS minus the all-fail product
(below the root). -/

def fullS (rs : List ℚ) (mask : List Bool) : List (Mat × List ℚ) → ℚ
  | [] => (maskedRates rs mask).prod
  | (mat, tr) :: rest =>
    ((scenarios mask).map fun ok =>
      occProb rs mask ok * fullS tr (connectedTargets tr.length mat ok) rest).sum

/-! ### Basic facts about scenarios -/

theorem length_of_mem_scenarios {mask : List Bool} {ok : List Bool}
    (h : ok ∈ scenarios mask) : ok.length = mask.length := by
  induction mask generalizing ok with
  | nil => simp [scenarios] at h; simp [h]
  | cons m ms ih =>
    simp only [scenarios, List.mem_flatMap, List.mem_map] at h
    obtain ⟨b, _, σ, hσ, rfl⟩ := h
    simp [ih hσ]

theorem scenarios_cons_eq (m : Bool) (ms : List Bool) :
    scenarios (m :: ms) =
      (scenarios ms).map (fun ok => false :: ok) ++
        (if m then (scenarios ms).map (fun ok => true :: ok) else []) := by
  cases m <;> simp [scenarios]

theorem scenarios_head_allfalse (mask : List Bool) :
    scenarios mask = List.replicate mask.length false :: (scenarios mask).tail := by
  induction mask with
  | nil => rfl
  | cons m ms ih =>
    rw [scenarios_cons_eq, ih]
    simp [List.replicate_succ]

theorem allfalse_mem_scenarios (mask : List Bool) :
    List.replicate mask.length false ∈ scenarios mask := by
  rw [scenarios_head_allfalse mask]; exact List.mem_cons_self _ _

theorem any_replicate_false (n : ℕ) : (List.replicate n false).any id = false := by
  induction n <;> simp [List.replicate_succ]

/-- In every scenario list there is exactly one assignment with no
survivor: the all-failed one. -/
theorem scenarios_filter_allfalse (mask : List Bool) :
    (scenarios mask).filter (fun ok => !(ok.any id)) =
      [List.replicate mask.length false] := by
  induction mask with
  | nil => simp [scenarios]
  | cons m ms ih =>
    rw [scenarios_cons_eq]
    cases m <;>
      simp [List.filter_append, List.filter_map, Function.comp_def, ih, List.replicate_succ]

theorem retainedScenarios_true (mask : List Bool) :
    retainedScenarios true mask = scenarios mask := by
  simp [retainedScenarios]

/-- Splitting the sum over all scenarios into the retained (non-root)
ones plus the all-failed one. -/
theorem sum_map_scenarios_split (mask : List Bool) (f : List Bool → ℚ) :
    ((scenarios mask).map f).sum =
      ((retainedScenarios false mask).map f).sum +
        f (List.replicate mask.length false) := by
  have key : ∀ l : List (List Bool),
      (l.map f).sum = ((l.filter fun ok => false || ok.any id).map f).sum +
        ((l.filter fun ok => !(ok.any id)).map f).sum := by
    intro l
    induction l with
    | nil => simp
    | cons x xs ih =>
      by_cases hx : x.any id = true <;> simp [hx, ih] <;> ring
  rw [key (scenarios mask), scenarios_filter_allfalse]
  simp [retainedScenarios]

/-- Branching the scenario sum on the head unit of the mask. -/
theorem sum_map_scenarios_cons (m : Bool) (ms : List Bool) (f : List Bool → ℚ) :
    ((scenarios (m :: ms)).map f).sum =
      (((scenarios ms).map fun σ => f (false :: σ)).sum +
        if m then ((scenarios ms).map fun σ => f (true :: σ)).sum else 0) := by
  rw [scenarios_cons_eq]
  cases m <;> simp [Function.comp_def]

/-! ### Basic facts about occProb -/

def ratesBounded (l : List ℚ) : Prop := ∀ r ∈ l, 0 ≤ r ∧ r ≤ 1

theorem occProb_allfalse (rs : List ℚ) (mask : List Bool) :
    occProb rs mask (List.replicate mask.length false) = (maskedRates rs mask).prod := by
  induction rs generalizing mask with
  | nil => cases mask <;> simp [occProb, maskedRates]
  | cons r rs ih =>
    cases mask with
    | nil => simp [occProb, maskedRates]
    | cons m ms =>
      simp only [List.length_cons, List.replicate_succ]
      show (if m then (if false then 1 - r else r) else 1) *
          occProb rs ms (List.replicate ms.length false) = _
      cases m <;> simp [maskedRates, ih]

theorem occProb_of_allfalse_mask (rs : List ℚ) (mask ok : List Bool)
    (h : ∀ b ∈ mask, b = false) : occProb rs mask ok = 1 := by
  induction rs generalizing mask ok with
  | nil => cases mask <;> cases ok <;> rfl
  | cons r rs ih =>
    cases mask with
    | nil => cases ok <;> rfl
    | cons m ms =>
      cases ok with
      | nil => rfl
      | cons b bs =>
        have hm : m = false := h m (List.mem_cons_self _ _)
        show (if m then (if b then 1 - r else r) else 1) * occProb rs ms bs = 1
        rw [hm, if_neg (by simp), ih ms bs fun x hx => h x (List.mem_cons_of_mem _ hx), one_mul]

theorem occProb_bounds {rs : List ℚ} (hr : ratesBounded rs) (mask ok : List Bool) :
    0 ≤ occProb rs mask ok ∧ occProb rs mask ok ≤ 1 := by
  induction rs generalizing mask ok with
  | nil => cases mask <;> cases ok <;> simp [occProb]
  | cons r rs ih =>
    have hr0 := hr r (List.mem_cons_self _ _)
    have hrs : ratesBounded rs := fun x hx => hr x (List.mem_cons_of_mem _ hx)
    cases mask with
    | nil => cases ok <;> simp [occProb]
    | cons m ms =>
      cases ok with
      | nil => simp [occProb]
      | cons b bs =>
        obtain ⟨ha, hb⟩ := hr0
        have hmb : 0 ≤ (if m then (if b then 1 - r else r) else 1) ∧
            (if m then (if b then 1 - r else r) else 1) ≤ 1 := by
          cases m <;> cases b <;> norm_num <;> first | linarith | (constructor <;> linarith)
        obtain ⟨h1, h2⟩ := ih hrs ms bs
        constructor
        · exact mul_nonneg hmb.1 h1
        · calc (if m then (if b then 1 - r else r) else 1) * occProb rs ms bs
              ≤ 1 * 1 := mul_le_mul hmb.2 h2 h1 zero_le_one
            _ = 1 := one_mul 1

/-- The occurrence probabilities of all scenarios sum to one. -/
theorem sum_occProb (rs : List ℚ) (mask : List Bool) (hlen : mask.length ≤ rs.length) :
    ((scenarios mask).map (occProb rs mask)).sum = 1 := by
  induction mask generalizing rs with
  | nil => simp [scenarios, occProb]
  | cons m ms ih =>
    cases rs with
    | nil => simp at hlen
    | cons r rs =>
      have hlen' : ms.length ≤ rs.length := by simpa using hlen
      have hf : ∀ b : Bool, ((scenarios ms).map fun σ => occProb (r :: rs) (m :: ms) (b :: σ)).sum
          = (if m then (if b then 1 - r else r) else 1) * ((scenarios ms).map (occProb rs ms)).sum := by
        intro b
        rw [← List.sum_map_mul_left]
        congr 1
      rw [sum_map_scenarios_cons]
      cases m
      · rw [hf false, ih rs hlen']; norm_num
      · rw [hf false, hf true, ih rs hlen']; norm_num

/-! ### Facts about connectedTargets and maskedRates -/

theorem connectedTargets_length_le (nTgt : ℕ) (mat : Mat) (ok : List Bool) :
    (connectedTargets nTgt mat ok).length ≤ nTgt := by
  induction mat generalizing ok with
  | nil => cases ok <;> simp [connectedTargets]
  | cons row mat ih =>
    cases ok with
    | nil => simp [connectedTargets]
    | cons b bs =>
      show (if b then List.zipWith _ row (connectedTargets nTgt mat bs)
          else connectedTargets nTgt mat bs).length ≤ nTgt
      cases b with
      | false => simpa using ih bs
      | true =>
        simp only [if_pos]
        calc (List.zipWith (fun x y => x || y) row (connectedTargets nTgt mat bs)).length
            ≤ (connectedTargets nTgt mat bs).length := by
              rw [List.length_zipWith]; exact min_le_right _ _
          _ ≤ nTgt := ih bs

theorem connectedTargets_allfalse (nTgt : ℕ) (mat : Mat) (ok : List Bool)
    (h : ∀ b ∈ ok, b = false) : connectedTargets nTgt mat ok = List.replicate nTgt false := by
  induction mat generalizing ok with
  | nil => cases ok <;> rfl
  | cons row mat ih =>
    cases ok with
    | nil => rfl
    | cons b bs =>
      have hb : b = false := h b (List.mem_cons_self _ _)
      show (if b then _ else connectedTargets nTgt mat bs) = _
      rw [hb, if_neg (by simp)]
      exact ih bs fun x hx => h x (List.mem_cons_of_mem _ hx)

theorem maskedRates_eq_nil (rates : List ℚ) (conn : List Bool)
    (h : ∀ b ∈ conn, b = false) : maskedRates rates conn = [] := by
  rw [maskedRates, List.map_eq_nil_iff, List.filter_eq_nil_iff]
  intro p hp
  have : p.2 ∈ conn := (List.of_mem_zip hp).2
  simp [h p.2 this]

theorem allfalse_of_maskedRates_nil (rates : List ℚ) (conn : List Bool)
    (hlen : conn.length ≤ rates.length) (h : maskedRates rates conn = []) :
    ∀ b ∈ conn, b = false := by
  intro b hb
  by_contra hb'
  have hb'' : b = true := by revert hb'; cases b <;> simp
  subst hb''
  obtain ⟨i, hi, hget⟩ := List.mem_iff_getElem.mp hb
  have hir : i < rates.length := lt_of_lt_of_le hi hlen
  have hmem : (rates[i], true) ∈ rates.zip conn := by
    rw [← hget]
    exact List.mem_iff_getElem.mpr ⟨i, by simp [List.length_zip]; omega, by simp⟩
  have : (rates[i], true) ∈ (rates.zip conn).filter fun p => p.2 := by
    rw [List.mem_filter]; exact ⟨hmem, rfl⟩
  rw [maskedRates, List.map_eq_nil_iff] at h
  rw [h] at this
  simp at this

theorem maskedRates_subset {rates : List ℚ} {conn : List Bool} :
    ∀ x ∈ maskedRates rates conn, x ∈ rates := by
  intro x hx
  rw [maskedRates] at hx
  obtain ⟨p, hp, rfl⟩ := List.mem_map.mp hx
  exact (List.of_mem_zip (List.mem_of_mem_filter hp)).1

/-! ### fullS on a fully failed mask -/

theorem scenarios_of_allfalse_mask (mask : List Bool) (h : ∀ b ∈ mask, b = false) :
    scenarios mask = [List.replicate mask.length false] := by
  induction mask with
  | nil => rfl
  | cons m ms ih =>
    have hm : m = false := h m (List.mem_cons_self _ _)
    subst hm
    rw [scenarios_cons_eq, ih fun x hx => h x (List.mem_cons_of_mem _ hx)]
    simp [List.replicate_succ]

/-- A call whose connectivity mask has no surviving-reachable unit is a
certain failure: the unguarded sum is one. -/
theorem fullS_allfalse_mask (lv : List (Mat × List ℚ)) (rs : List ℚ) (mask : List Bool)
    (h : ∀ b ∈ mask, b = false) : fullS rs mask lv = 1 := by
  induction lv generalizing rs mask with
  | nil =>
    show (maskedRates rs mask).prod = 1
    rw [maskedRates_eq_nil rs mask h]; rfl
  | cons hd rest ih =>
    obtain ⟨mat, tr⟩ := hd
    show ((scenarios mask).map _).sum = 1
    rw [scenarios_of_allfalse_mask mask h]
    have hconn : connectedTargets tr.length mat (List.replicate mask.length false) =
        List.replicate tr.length false :=
      connectedTargets_allfalse _ _ _ (by simp)
    simp only [List.map_cons, List.map_nil, List.sum_cons, List.sum_nil]
    rw [occProb_of_allfalse_mask rs mask _ h, hconn, ih tr (List.replicate tr.length false) (by simp)]
    ring

/-! ### branch in terms of fullS -/

/-- Each retained scenario of branch contributes its occurrence
probability times the unguarded downstream sum, and branch is the
unguarded sum with, below the root, the all-fail product removed. -/
theorem branch_eq_fullS :
    ∀ (rest : List (Mat × List ℚ)) (mat : Mat) (tr rs : List ℚ) (mask : List Bool),
      (∀ ok : List Bool, contrib rs mask mat tr rest ok =
        occProb rs mask ok * fullS tr (connectedTargets tr.length mat ok) rest) ∧
      branch true rs mask ((mat, tr) :: rest) = fullS rs mask ((mat, tr) :: rest) ∧
      branch false rs mask ((mat, tr) :: rest) =
        fullS rs mask ((mat, tr) :: rest) - (maskedRates rs mask).prod := by
  intro rest
  induction rest with
  | nil =>
    intro mat tr rs mask
    have hsc : ∀ ok : List Bool, contrib rs mask mat tr [] ok =
        occProb rs mask ok * fullS tr (connectedTargets tr.length mat ok) [] := by
      intro ok
      rw [contrib]
      simp only [List.isEmpty_nil, if_true]
      by_cases hempty : (maskedRates tr (connectedTargets tr.length mat ok)).isEmpty
      · rw [if_pos hempty]
        have h0 : fullS tr (connectedTargets tr.length mat ok) [] = 1 := by
          show (maskedRates tr (connectedTargets tr.length mat ok)).prod = 1
          rw [List.isEmpty_iff] at hempty
          rw [hempty]; rfl
        rw [h0, mul_one]
      · rw [if_neg hempty]
        show _ * _ + 0 = _
        rw [add_zero]; rfl
    refine ⟨hsc, ?_, ?_⟩
    · rw [branch_cons, retainedScenarios_true]
      show _ = ((scenarios mask).map _).sum
      exact congrArg _ (List.map_congr_left fun ok _ => hsc ok)
    · rw [branch_cons]
      have : ((scenarios mask).map (contrib rs mask mat tr [])).sum =
          ((retainedScenarios false mask).map (contrib rs mask mat tr [])).sum +
            contrib rs mask mat tr [] (List.replicate mask.length false) := by
        exact sum_map_scenarios_split mask _
      have hLHS : ((scenarios mask).map (contrib rs mask mat tr [])).sum =
          fullS rs mask [(mat, tr)] := by
        show _ = ((scenarios mask).map _).sum
        exact congrArg _ (List.map_congr_left fun ok _ => hsc ok)
      have hall : contrib rs mask mat tr [] (List.replicate mask.length false) =
          (maskedRates rs mask).prod := by
        rw [hsc, connectedTargets_allfalse _ _ _ (by simp),
          fullS_allfalse_mask [] tr _ (by simp), mul_one, occProb_allfalse]
      rw [hLHS, hall] at this
      linarith
  | cons hd rest2 ih =>
    intro mat tr rs mask
    obtain ⟨mat2, tr2⟩ := hd
    have hsc : ∀ ok : List Bool, contrib rs mask mat tr ((mat2, tr2) :: rest2) ok =
        occProb rs mask ok *
          fullS tr (connectedTargets tr.length mat ok) ((mat2, tr2) :: rest2) := by
      intro ok
      rw [contrib]
      simp only [List.isEmpty_cons, if_false]
      set conn := connectedTargets tr.length mat ok with hconn
      by_cases hempty : (maskedRates tr conn).isEmpty
      · rw [if_pos hempty]
        have hfalse : ∀ b ∈ conn, b = false := by
          refine allfalse_of_maskedRates_nil tr conn ?_ (List.isEmpty_iff.mp hempty)
          exact connectedTargets_length_le _ _ _
        rw [fullS_allfalse_mask _ tr conn hfalse, mul_one]
      · rw [if_neg hempty]
        have hrec := (ih mat2 tr2 tr conn).2.2
        rw [hrec]
        simp only [Bool.false_eq_true, if_false]
        ring
    refine ⟨hsc, ?_, ?_⟩
    · rw [branch_cons, retainedScenarios_true]
      show _ = ((scenarios mask).map _).sum
      exact congrArg _ (List.map_congr_left fun ok _ => hsc ok)
    · rw [branch_cons]
      have hsplit := sum_map_scenarios_split mask (contrib rs mask mat tr ((mat2, tr2) :: rest2))
      have hLHS : ((scenarios mask).map (contrib rs mask mat tr ((mat2, tr2) :: rest2))).sum =
          fullS rs mask ((mat, tr) :: (mat2, tr2) :: rest2) := by
        show _ = ((scenarios mask).map _).sum
        exact congrArg _ (List.map_congr_left fun ok _ => hsc ok)
      have hall : contrib rs mask mat tr ((mat2, tr2) :: rest2)
          (List.replicate mask.length false) = (maskedRates rs mask).prod := by
        rw [hsc, connectedTargets_allfalse _ _ _ (by simp),
          fullS_allfalse_mask _ tr _ (by simp), mul_one, occProb_allfalse]
      rw [hLHS, hall] at hsplit
      linarith

theorem branch_true_eq_fullS (mat : Mat) (tr rs : List ℚ) (mask : List Bool)
    (rest : List (Mat × List ℚ)) :
    branch true rs mask ((mat, tr) :: rest) = fullS rs mask ((mat, tr) :: rest) :=
  (branch_eq_fullS rest mat tr rs mask).2.1

theorem branch_false_eq_fullS (mat : Mat) (tr rs : List ℚ) (mask : List Bool)
    (rest : List (Mat × List ℚ)) :
    branch false rs mask ((mat, tr) :: rest) =
      fullS rs mask ((mat, tr) :: rest) - (maskedRates rs mask).prod :=
  (branch_eq_fullS rest mat tr rs mask).2.2

theorem contrib_eq (mat : Mat) (tr rs : List ℚ) (mask : List Bool)
    (rest : List (Mat × List ℚ)) (ok : List Bool) :
    contrib rs mask mat tr rest ok =
      occProb rs mask ok * fullS tr (connectedTargets tr.length mat ok) rest := by
  cases rest with
  | nil => exact (branch_eq_fullS [] mat tr rs mask).1 ok
  | cons hd rest2 => exact (branch_eq_fullS (hd :: rest2) mat tr rs mask).1 ok

/-! ### Bounds: every intermediate total is a probability -/

theorem list_prod_bounds {l : List ℚ} (h : ∀ x ∈ l, 0 ≤ x ∧ x ≤ 1) :
    0 ≤ l.prod ∧ l.prod ≤ 1 := by
  induction l with
  | nil => norm_num
  | cons x xs ih =>
    obtain ⟨hx0, hx1⟩ := h x (List.mem_cons_self _ _)
    obtain ⟨h0, h1⟩ := ih fun y hy => h y (List.mem_cons_of_mem _ hy)
    rw [List.prod_cons]
    constructor
    · exact mul_nonneg hx0 h0
    · calc x * xs.prod ≤ 1 * 1 := mul_le_mul hx1 h1 h0 zero_le_one
        _ = 1 := one_mul 1

def lvBounded (lv : List (Mat × List ℚ)) : Prop := ∀ p ∈ lv, ratesBounded p.2

theorem fullS_bounds :
    ∀ (lv : List (Mat × List ℚ)) (rs : List ℚ) (mask : List Bool),
      ratesBounded rs → lvBounded lv → mask.length ≤ rs.length →
      0 ≤ fullS rs mask lv ∧ fullS rs mask lv ≤ 1 := by
  intro lv
  induction lv with
  | nil =>
    intro rs mask hrs _ _
    exact list_prod_bounds fun x hx => hrs x (maskedRates_subset x hx)
  | cons hd rest ih =>
    intro rs mask hrs hlv hlen
    obtain ⟨mat, tr⟩ := hd
    have htr : ratesBounded tr := hlv (mat, tr) (List.mem_cons_self _ _)
    have hrest : lvBounded rest := fun p hp => hlv p (List.mem_cons_of_mem _ hp)
    have hterm : ∀ ok ∈ scenarios mask,
        0 ≤ occProb rs mask ok * fullS tr (connectedTargets tr.length mat ok) rest ∧
        occProb rs mask ok * fullS tr (connectedTargets tr.length mat ok) rest ≤
          occProb rs mask ok := by
      intro ok _
      obtain ⟨ho0, ho1⟩ := occProb_bounds hrs mask ok
      obtain ⟨hf0, hf1⟩ := ih tr (connectedTargets tr.length mat ok) htr hrest
        (connectedTargets_length_le _ _ _)
      refine ⟨mul_nonneg ho0 hf0, ?_⟩
      calc occProb rs mask ok * fullS tr (connectedTargets tr.length mat ok) rest
          ≤ occProb rs mask ok * 1 := by
            exact mul_le_mul_of_nonneg_left hf1 ho0
        _ = occProb rs mask ok := mul_one _
    constructor
    · exact List.sum_nonneg fun x hx => by
        obtain ⟨ok, hok, rfl⟩ := List.mem_map.mp hx
        exact (hterm ok hok).1
    · calc fullS rs mask ((mat, tr) :: rest)
          ≤ ((scenarios mask).map (occProb rs mask)).sum :=
            List.sum_le_sum fun ok hok => (hterm ok hok).2
        _ = 1 := sum_occProb rs mask hlen

theorem contrib_bounds (mat : Mat) (tr rs : List ℚ) (mask : List Bool)
    (rest : List (Mat × List ℚ)) (ok : List Bool)
    (hrs : ratesBounded rs) (htr : ratesBounded tr) (hrest : lvBounded rest) :
    0 ≤ contrib rs mask mat tr rest ok ∧
      contrib rs mask mat tr rest ok ≤ occProb rs mask ok := by
  rw [contrib_eq]
  obtain ⟨ho0, _⟩ := occProb_bounds hrs mask ok
  obtain ⟨hf0, hf1⟩ := fullS_bounds rest tr (connectedTargets tr.length mat ok) htr hrest
    (connectedTargets_length_le _ _ _)
  refine ⟨mul_nonneg ho0 hf0, ?_⟩
  calc occProb rs mask ok * fullS tr (connectedTargets tr.length mat ok) rest
      ≤ occProb rs mask ok * 1 := mul_le_mul_of_nonneg_left hf1 ho0
    _ = occProb rs mask ok := mul_one _

theorem sum_filter_le_sum (p : List Bool → Bool) (l : List (List Bool)) (f : List Bool → ℚ)
    (hf : ∀ x ∈ l, 0 ≤ f x) : ((l.filter p).map f).sum ≤ (l.map f).sum := by
  induction l with
  | nil => simp
  | cons x xs ih =>
    have hx := hf x (List.mem_cons_self _ _)
    have ih' := ih fun y hy => hf y (List.mem_cons_of_mem _ hy)
    by_cases hp : p x
    · simp only [List.filter_cons, hp, if_true, List.map_cons, List.sum_cons]
      linarith
    · simp only [List.filter_cons, hp, if_false, List.map_cons, List.sum_cons, Bool.false_eq_true]
      linarith

/-- Every call of branch returns a value in the unit interval, provided
all failure rates are probabilities. -/
theorem branch_bounds (isRoot : Bool) (mat : Mat) (tr rs : List ℚ) (mask : List Bool)
    (rest : List (Mat × List ℚ))
    (hrs : ratesBounded rs) (htr : ratesBounded tr) (hrest : lvBounded rest)
    (hlen : mask.length ≤ rs.length) :
    0 ≤ branch isRoot rs mask ((mat, tr) :: rest) ∧
      branch isRoot rs mask ((mat, tr) :: rest) ≤ 1 := by
  rw [branch_cons]
  constructor
  · exact List.sum_nonneg fun x hx => by
      obtain ⟨ok, hok, rfl⟩ := List.mem_map.mp hx
      exact (contrib_bounds mat tr rs mask rest ok hrs htr hrest).1
  · calc ((retainedScenarios isRoot mask).map (contrib rs mask mat tr rest)).sum
        ≤ ((retainedScenarios isRoot mask).map (occProb rs mask)).sum :=
          List.sum_le_sum fun ok _ => (contrib_bounds mat tr rs mask rest ok hrs htr hrest).2
      _ ≤ ((scenarios mask).map (occProb rs mask)).sum := by
          refine sum_filter_le_sum _ _ _ fun ok _ => (occProb_bounds hrs mask ok).1
      _ = 1 := sum_occProb rs mask hlen

/-! ### Evaluation rules for failure_prob -/

theorem failure_prob_eval2 (sT cT : List String) (conns ac : List (ℤ × ℤ))
    (sR cR : List ℚ) (m1 : Mat)
    (h1 : lookupAll rateS sT = .ok sR) (h2 : lookupAll rateC cT = .ok cR)
    (h4 : buildMatrix sR.length cR.length conns = .ok m1) :
    failure_prob sT cT conns none ac =
      .ok (branch true sR (List.replicate sR.length true) [(m1, cR)]) := by
  unfold failure_prob
  rw [h1, h2]
  dsimp only
  rw [h4]

theorem failure_prob_eval3 (sT cT aT : List String) (conns ac : List (ℤ × ℤ))
    (sR cR aR : List ℚ) (m1 m2 : Mat)
    (h1 : lookupAll rateS sT = .ok sR) (h2 : lookupAll rateC cT = .ok cR)
    (h3 : lookupAll rateA aT = .ok aR)
    (h4 : buildMatrix sR.length cR.length conns = .ok m1)
    (h5 : buildMatrix cR.length aR.length ac = .ok m2) :
    failure_prob sT cT conns (some aT) ac =
      .ok (branch true sR (List.replicate sR.length true) [(m1, cR), (m2, aR)]) := by
  unfold failure_prob
  rw [h1, h2]
  dsimp only
  rw [h3]
  dsimp only
  rw [h4]
  dsimp only
  rw [h5]

/-! ## Claim theorems -/

/-- C1: in every call of the failure engine the all-failed scenario over
the connected set is retained if and only if the call is the root one
(transition t = 0); recursive calls pass isRoot = false, so the scenario
is skipped exactly when t is positive. At the root the all-failed
scenario is enumerated (it is the head of the scenario list, exactly as
with itertools.product) and contributes precisely its occurrence
probability to the total. -/
theorem claim_C1_allfailed_guard :
    (∀ (isRoot : Bool) (mask : List Bool),
      List.replicate mask.length false ∈ retainedScenarios isRoot mask ↔ isRoot = true) ∧
    (∀ (rs : List ℚ) (mask : List Bool) (mat : Mat) (tr : List ℚ)
        (rest : List (Mat × List ℚ)),
      branch true rs mask ((mat, tr) :: rest) =
        occProb rs mask (List.replicate mask.length false) +
          ((retainedScenarios true mask).tail.map (contrib rs mask mat tr rest)).sum) := by
  constructor
  · intro isRoot mask
    rw [retainedScenarios, List.mem_filter]
    cases isRoot <;> simp [allfalse_mem_scenarios, any_replicate_false]
  · intro rs mask mat tr rest
    rw [branch_cons, retainedScenarios_true]
    rw [scenarios_head_allfalse mask]
    simp only [List.map_cons, List.sum_cons, List.tail_cons]
    congr 1
    rw [contrib_eq, connectedTargets_allfalse _ _ _ (by simp),
      fullS_allfalse_mask _ tr _ (by simp), mul_one]

/-- C4: in every call of the engine, a scenario in which no unit of the
next stage is reachable from any surviving connected source (including
the case of a source with no outgoing edges at all) contributes exactly
its full occurrence probability: no all-targets-fail factor and no
recursive downstream term appear in its contribution. -/
theorem claim_C4_no_connectivity (isRoot : Bool) (rs : List ℚ) (mask : List Bool)
    (mat : Mat) (tr : List ℚ) (rest : List (Mat × List ℚ)) (ok : List Bool)
    (_hmem : ok ∈ retainedScenarios isRoot mask)
    (hconn : ∀ b ∈ connectedTargets tr.length mat ok, b = false) :
    contrib rs mask mat tr rest ok = occProb rs mask ok := by
  rw [contrib_eq, fullS_allfalse_mask _ tr _ hconn, mul_one]

theorem claim_C4_witness :
    ([true] ∈ retainedScenarios true [true]) ∧
    (∀ b ∈ connectedTargets (List.length [(1 : ℚ)/5]) [[false]] [true], b = false) ∧
    contrib [1/10] [true] [[false]] [(1 : ℚ)/5] [] [true] =
      occProb [1/10] [true] [true] :=
  ⟨by decide, by decide,
    claim_C4_no_connectivity true [1/10] [true] [[false]] [(1 : ℚ)/5] [] [true]
      (by decide) (by decide)⟩

/-- C3: for the fully connected one-sensor, one-computer, one-actuator
chain the engine returns exactly s + (1-s)c + (1-s)(1-c)a: the
all-targets-fail term and the downstream recursive term each occur once,
and the guard removes exactly one scenario (the all-failed one) from
every non-root call, as witnessed both by the closed-form value, by the
scenario count, and by the concrete catalog evaluation of the full
pipeline on the 1x1x1 chain of type-A units. -/
theorem claim_C3_three_stage_chain :
    (∀ s c a : ℚ,
      branch true [s] [true] [([[true]], [c]), ([[true]], [a])] =
        s + (1 - s) * c + (1 - s) * (1 - c) * a) ∧
    (∀ mask : List Bool,
      (scenarios mask).length = (retainedScenarios false mask).length + 1) ∧
    retainedScenarios false [true] = [[true]] ∧
    failure_prob ["A"] ["A"] [(0, 0)] (some ["A"]) [(0, 0)] =
      .ok (15/100000 + (1 - 15/100000) * (1/10000) +
        (1 - 15/100000) * (1 - 1/10000) * (8/100000)) := by
  have hform : ∀ s c a : ℚ,
      branch true [s] [true] [([[true]], [c]), ([[true]], [a])] =
        s + (1 - s) * c + (1 - s) * (1 - c) * a := by
    intro s c a
    simp [branch, retainedScenarios, scenarios, occProb, connectedTargets, maskedRates]
    ring
  refine ⟨hform, ?_, by decide, ?_⟩
  · intro mask
    have key : ∀ l : List (List Bool),
        l.length = (l.filter fun ok => ok.any id).length +
          (l.filter fun ok => !(ok.any id)).length := by
      intro l
      induction l with
      | nil => rfl
      | cons x xs ih =>
        by_cases hx : x.any id = true <;> simp [List.filter_cons, hx, ih] <;> omega
    have := key (scenarios mask)
    rw [scenarios_filter_allfalse] at this
    simpa [retainedScenarios] using this
  · have h1 : lookupAll rateS ["A"] = .ok [15/100000] := by norm_num [lookupAll, rateS]
    have h2 : lookupAll rateC ["A"] = .ok [1/10000] := by norm_num [lookupAll, rateC]
    have h3 : lookupAll rateA ["A"] = .ok [8/100000] := by norm_num [lookupAll, rateA]
    have h4 : buildMatrix 1 1 [((0 : ℤ), (0 : ℤ))] = .ok [[true]] := by
      norm_num [buildMatrix, buildMatrixAux, resolveIdx, setEntry]
    rw [failure_prob_eval3 _ _ _ _ _ _ _ _ _ _ h1 h2 h3 h4 h4]
    have hmask : List.replicate (List.length [(15 : ℚ)/100000]) true = [true] := rfl
    rw [hmask, hform]

set_option exponentiation.threshold 10000 in
/-- C2: one type-A sensor (rate 0.00015), one type-A computer (rate
0.0001), one connecting edge, no actuators: the engine computes the
failure probability 0.00015 + 0.99985 times 0.0001 = 0.000249985
exactly, calc_failure_rate returns its base-10 logarithm, and that
logarithm lies strictly between -3.603 and -3.602 (approximately
-3.6021). -/
theorem claim_C2_two_stage_case :
    failure_prob ["A"] ["A"] [(0, 0)] none [] = .ok (249985/1000000000) ∧
    calc_failure_rate ["A"] ["A"] [(0, 0)] none [] =
      .ok (Real.logb 10 ((249985 : ℝ)/1000000000)) ∧
    -3603/1000 < Real.logb 10 ((249985 : ℝ)/1000000000) ∧
    Real.logb 10 ((249985 : ℝ)/1000000000) < -3602/1000 := by
  have h2form : ∀ s c : ℚ, branch true [s] [true] [([[true]], [c])] = s + (1 - s) * c := by
    intro s c
    simp [branch, retainedScenarios, scenarios, occProb, connectedTargets, maskedRates]
  have h1 : lookupAll rateS ["A"] = .ok [15/100000] := by norm_num [lookupAll, rateS]
  have h2 : lookupAll rateC ["A"] = .ok [1/10000] := by norm_num [lookupAll, rateC]
  have h4 : buildMatrix 1 1 [((0 : ℤ), (0 : ℤ))] = .ok [[true]] := by
    norm_num [buildMatrix, buildMatrixAux, resolveIdx, setEntry]
  have hprob : failure_prob ["A"] ["A"] [(0, 0)] none [] = .ok (249985/1000000000) := by
    rw [failure_prob_eval2 _ _ _ _ _ _ _ h1 h2 h4]
    have hmask : List.replicate (List.length [(15 : ℚ)/100000]) true = [true] := rfl
    rw [hmask, h2form]
    norm_num
  have hp : (0 : ℝ) < (249985 : ℝ)/1000000000 := by norm_num
  have hb10 : (1 : ℝ) < 10 := by norm_num
  have hpow : ((249985 : ℝ)/1000000000) ^ (1000 : ℕ) =
      (249985 : ℝ) ^ (1000 : ℕ) / (10 : ℝ) ^ (9000 : ℕ) := by
    rw [div_pow, show (1000000000 : ℝ) = (10 : ℝ) ^ (9 : ℕ) by norm_num, ← pow_mul]
  have hrpow : ∀ q : ℝ, ((10 : ℝ) ^ (q / 1000)) ^ (1000 : ℕ) = (10 : ℝ) ^ q := by
    intro q
    rw [← Real.rpow_natCast ((10 : ℝ) ^ (q / 1000)) 1000, ← Real.rpow_mul (by norm_num)]
    norm_num
  have hneg : ∀ n : ℕ, (10 : ℝ) ^ (-(n : ℝ)) = ((10 : ℝ) ^ n)⁻¹ := by
    intro n
    rw [← Real.rpow_natCast 10 n, ← Real.rpow_neg (by norm_num)]
  refine ⟨hprob, ?_, ?_, ?_⟩
  · unfold calc_failure_rate
    rw [hprob]
    simp only [Except.map]
    norm_num
  · rw [Real.lt_logb_iff_rpow_lt hb10 hp]
    have hkey : ((10 : ℝ) ^ ((-3603 : ℝ)/1000)) ^ (1000 : ℕ) <
        ((249985 : ℝ)/1000000000) ^ (1000 : ℕ) := by
      rw [hpow, hrpow (-3603), show (-3603 : ℝ) = -((3603 : ℕ) : ℝ) by norm_num, hneg 3603,
        inv_eq_one_div, div_lt_div_iff₀ (by positivity) (by positivity), one_mul]
      have hnat : (10 : ℕ) ^ 9000 < 249985 ^ 1000 * 10 ^ 3603 := by norm_num
      exact_mod_cast hnat
    exact lt_of_pow_lt_pow_left₀ 1000 (le_of_lt hp) hkey
  · rw [Real.logb_lt_iff_lt_rpow hb10 hp]
    have hkey : ((249985 : ℝ)/1000000000) ^ (1000 : ℕ) <
        ((10 : ℝ) ^ ((-3602 : ℝ)/1000)) ^ (1000 : ℕ) := by
      rw [hpow, hrpow (-3602), show (-3602 : ℝ) = -((3602 : ℕ) : ℝ) by norm_num, hneg 3602,
        inv_eq_one_div, div_lt_div_iff₀ (by positivity) (by positivity), one_mul]
      have hnat : (249985 : ℕ) ^ 1000 * 10 ^ 3602 < 10 ^ 9000 := by norm_num
      exact_mod_cast hnat
    exact lt_of_pow_lt_pow_left₀ 1000 (Real.rpow_nonneg (by norm_num) _) hkey

/-! ### Error propagation through the lookups and matrix builds -/

theorem catalog_none_of_unknown (t : String) (h : knownLabel t = false) :
    massS t = none ∧ massC t = none ∧ massA t = none ∧
      rateS t = none ∧ rateC t = none ∧ rateA t = none := by
  unfold knownLabel at h
  simp only [Bool.or_eq_false_iff, decide_eq_false_iff_not] at h
  obtain ⟨⟨h1, h2⟩, h3⟩ := h
  simp [massS, massC, massA, rateS, rateC, rateA, h1, h2, h3]

theorem catalog_some_of_known :
    ∀ t : String, knownLabel t = true →
      (∃ v, massS t = some v) ∧ (∃ v, massC t = some v) ∧ (∃ v, massA t = some v) ∧
      (∃ v, rateS t = some v) ∧ (∃ v, rateC t = some v) ∧ (∃ v, rateA t = some v) := by
  intro t h
  unfold knownLabel at h
  simp only [Bool.or_eq_true, decide_eq_true_eq] at h
  rcases h with (h | h) | h <;>
    simp [massS, massC, massA, rateS, rateC, rateA, h]

theorem lookupAll_error_of_unknown (f : String → Option ℚ)
    (hf : ∀ t, knownLabel t = false → f t = none) :
    ∀ l : List String, (∃ t ∈ l, knownLabel t = false) →
      lookupAll f l = .error .unknownType := by
  intro l
  induction l with
  | nil => rintro ⟨t, ht, -⟩; simp at ht
  | cons t ts ih =>
    rintro ⟨t0, ht0, hbad⟩
    rcases List.mem_cons.mp ht0 with rfl | hmem
    · show (match f t0 with | none => _ | some v => _) = _
      rw [hf t0 hbad]
    · show (match f t with | none => _ | some v => _) = _
      cases hft : f t with
      | none => rfl
      | some v =>
        rw [ih ⟨t0, hmem, hbad⟩]

theorem lookupAll_error_eq (f : String → Option ℚ) :
    ∀ (l : List String) (e : GNCError), lookupAll f l = .error e → e = .unknownType := by
  intro l
  induction l with
  | nil => intro e h; simp [lookupAll] at h
  | cons t ts ih =>
    intro e h
    rw [show lookupAll f (t :: ts) =
      (match f t with
        | none => .error .unknownType
        | some v =>
          match lookupAll f ts with
          | .error e => .error e
          | .ok vs => .ok (v :: vs)) from rfl] at h
    cases hft : f t with
    | none => rw [hft] at h; cases h; rfl
    | some v =>
      rw [hft] at h
      cases hrec : lookupAll f ts with
      | error e2 => rw [hrec] at h; cases h; exact ih _ hrec
      | ok vs => rw [hrec] at h; cases h

theorem lookupAll_ok_of_known (f : String → Option ℚ)
    (hf : ∀ t, knownLabel t = true → ∃ v, f t = some v) :
    ∀ l : List String, (∀ t ∈ l, knownLabel t = true) →
      ∃ vs, lookupAll f l = .ok vs ∧ vs.length = l.length := by
  intro l
  induction l with
  | nil => exact fun _ => ⟨[], rfl, rfl⟩
  | cons t ts ih =>
    intro hall
    obtain ⟨v, hv⟩ := hf t (hall t (List.mem_cons_self _ _))
    obtain ⟨vs, hvs, hlen⟩ := ih fun x hx => hall x (List.mem_cons_of_mem _ hx)
    refine ⟨v :: vs, ?_, by simp [hlen]⟩
    show (match f t with | none => _ | some v => _) = _
    rw [hv, hvs]

theorem lookupAll_ok_length (f : String → Option ℚ) :
    ∀ (l : List String) (vs : List ℚ), lookupAll f l = .ok vs → vs.length = l.length := by
  intro l
  induction l with
  | nil => intro vs h; cases h; rfl
  | cons t ts ih =>
    intro vs h
    rw [show lookupAll f (t :: ts) =
      (match f t with
        | none => .error .unknownType
        | some v =>
          match lookupAll f ts with
          | .error e => .error e
          | .ok vs => .ok (v :: vs)) from rfl] at h
    cases hft : f t with
    | none => rw [hft] at h; cases h
    | some v =>
      rw [hft] at h
      cases hrec : lookupAll f ts with
      | error e2 => rw [hrec] at h; cases h
      | ok vs2 => rw [hrec] at h; cases h; simp [ih vs2 hrec]

theorem lookupAll_ok_mem (f : String → Option ℚ) :
    ∀ (l : List String) (vs : List ℚ), lookupAll f l = .ok vs →
      ∀ v ∈ vs, ∃ t ∈ l, f t = some v := by
  intro l
  induction l with
  | nil => intro vs h; cases h; intro v hv; simp at hv
  | cons t ts ih =>
    intro vs h
    rw [show lookupAll f (t :: ts) =
      (match f t with
        | none => .error .unknownType
        | some v =>
          match lookupAll f ts with
          | .error e => .error e
          | .ok vs => .ok (v :: vs)) from rfl] at h
    cases hft : f t with
    | none => rw [hft] at h; cases h
    | some v0 =>
      rw [hft] at h
      cases hrec : lookupAll f ts with
      | error e2 => rw [hrec] at h; cases h
      | ok vs2 =>
        rw [hrec] at h; cases h
        intro v hv
        rcases List.mem_cons.mp hv with rfl | hmem
        · exact ⟨t, List.mem_cons_self _ _, hft⟩
        · obtain ⟨t2, ht2, hft2⟩ := ih vs2 hrec v hmem
          exact ⟨t2, List.mem_cons_of_mem _ ht2, hft2⟩

theorem buildMatrixAux_error_eq (nSrc nTgt : ℕ) :
    ∀ (edges : List (ℤ × ℤ)) (acc : Mat) (e : GNCError),
      buildMatrixAux nSrc nTgt edges acc = .error e → e = .danglingEdge := by
  intro edges
  induction edges with
  | nil => intro acc e h; cases h
  | cons ed es ih =>
    intro acc e h
    rw [show buildMatrixAux nSrc nTgt (ed :: es) acc =
      (match resolveIdx nSrc ed.1, resolveIdx nTgt ed.2 with
        | some i, some j => buildMatrixAux nSrc nTgt es (setEntry acc i j)
        | _, _ => .error .danglingEdge) from rfl] at h
    cases h1 : resolveIdx nSrc ed.1 with
    | none => rw [h1] at h; cases h2 : resolveIdx nTgt ed.2 <;> rw [h2] at h <;> (cases h; rfl)
    | some i =>
      rw [h1] at h
      cases h2 : resolveIdx nTgt ed.2 with
      | none => rw [h2] at h; cases h; rfl
      | some j => rw [h2] at h; exact ih _ e h

theorem buildMatrixAux_error_of_bad (nSrc nTgt : ℕ) :
    ∀ (edges : List (ℤ × ℤ)) (acc : Mat),
      (∃ ed ∈ edges, resolveIdx nSrc ed.1 = none ∨ resolveIdx nTgt ed.2 = none) →
      buildMatrixAux nSrc nTgt edges acc = .error .danglingEdge := by
  intro edges
  induction edges with
  | nil => rintro acc ⟨ed, hmem, -⟩; simp at hmem
  | cons ed es ih =>
    rintro acc ⟨ed0, hmem, hbad⟩
    rw [show buildMatrixAux nSrc nTgt (ed :: es) acc =
      (match resolveIdx nSrc ed.1, resolveIdx nTgt ed.2 with
        | some i, some j => buildMatrixAux nSrc nTgt es (setEntry acc i j)
        | _, _ => .error .danglingEdge) from rfl]
    cases h1 : resolveIdx nSrc ed.1 with
    | none => cases h2 : resolveIdx nTgt ed.2 <;> rfl
    | some i =>
      cases h2 : resolveIdx nTgt ed.2 with
      | none => rfl
      | some j =>
        rcases List.mem_cons.mp hmem with rfl | hmem2
        · rcases hbad with hbad | hbad
          · rw [h1] at hbad; cases hbad
          · rw [h2] at hbad; cases hbad
        · exact ih _ ⟨ed0, hmem2, hbad⟩

theorem buildMatrix_error_of_bad (nSrc nTgt : ℕ) (edges : List (ℤ × ℤ))
    (h : ∃ ed ∈ edges, resolveIdx nSrc ed.1 = none ∨ resolveIdx nTgt ed.2 = none) :
    buildMatrix nSrc nTgt edges = .error .danglingEdge :=
  buildMatrixAux_error_of_bad nSrc nTgt edges _ h

theorem buildMatrix_error_eq (nSrc nTgt : ℕ) (edges : List (ℤ × ℤ)) (e : GNCError)
    (h : buildMatrix nSrc nTgt edges = .error e) : e = .danglingEdge :=
  buildMatrixAux_error_eq nSrc nTgt edges _ e h

theorem calc_mass_error_unknown (sT cT : List String) (aT : Option (List String))
    (hbad : (∃ t ∈ sT, knownLabel t = false) ∨ (∃ t ∈ cT, knownLabel t = false) ∨
      (∃ l, aT = some l ∧ ∃ t ∈ l, knownLabel t = false)) :
    calc_mass sT cT aT = .error .unknownType := by
  have hfS : ∀ t, knownLabel t = false → massS t = none :=
    fun t h => (catalog_none_of_unknown t h).1
  have hfC : ∀ t, knownLabel t = false → massC t = none :=
    fun t h => (catalog_none_of_unknown t h).2.1
  have hfA : ∀ t, knownLabel t = false → massA t = none :=
    fun t h => (catalog_none_of_unknown t h).2.2.1
  rcases hbad with hbadS | hbadC | ⟨l, rfl, hbadA⟩
  · unfold calc_mass
    rw [lookupAll_error_of_unknown massS hfS sT hbadS]
  · unfold calc_mass
    cases hs : lookupAll massS sT with
    | error e => have := lookupAll_error_eq massS sT e hs; subst this; rfl
    | ok sm =>
      dsimp only
      rw [lookupAll_error_of_unknown massC hfC cT hbadC]
  · unfold calc_mass
    cases hs : lookupAll massS sT with
    | error e => have := lookupAll_error_eq massS sT e hs; subst this; rfl
    | ok sm =>
      dsimp only
      cases hc : lookupAll massC cT with
      | error e => have := lookupAll_error_eq massC cT e hc; subst this; rfl
      | ok cm =>
        dsimp only
        rw [lookupAll_error_of_unknown massA hfA l hbadA]

theorem failure_prob_error_unknown (sT cT : List String) (conns ac : List (ℤ × ℤ))
    (aT : Option (List String))
    (hbad : (∃ t ∈ sT, knownLabel t = false) ∨ (∃ t ∈ cT, knownLabel t = false) ∨
      (∃ l, aT = some l ∧ ∃ t ∈ l, knownLabel t = false)) :
    failure_prob sT cT conns aT ac = .error .unknownType := by
  have hfS : ∀ t, knownLabel t = false → rateS t = none :=
    fun t h => (catalog_none_of_unknown t h).2.2.2.1
  have hfC : ∀ t, knownLabel t = false → rateC t = none :=
    fun t h => (catalog_none_of_unknown t h).2.2.2.2.1
  have hfA : ∀ t, knownLabel t = false → rateA t = none :=
    fun t h => (catalog_none_of_unknown t h).2.2.2.2.2
  rcases hbad with hbadS | hbadC | ⟨l, rfl, hbadA⟩
  · unfold failure_prob
    rw [lookupAll_error_of_unknown rateS hfS sT hbadS]
  · unfold failure_prob
    cases hs : lookupAll rateS sT with
    | error e => have := lookupAll_error_eq rateS sT e hs; subst this; rfl
    | ok sR =>
      dsimp only
      rw [lookupAll_error_of_unknown rateC hfC cT hbadC]
  · unfold failure_prob
    cases hs : lookupAll rateS sT with
    | error e => have := lookupAll_error_eq rateS sT e hs; subst this; rfl
    | ok sR =>
      dsimp only
      cases hc : lookupAll rateC cT with
      | error e => have := lookupAll_error_eq rateC cT e hc; subst this; rfl
      | ok cR =>
        dsimp only
        rw [lookupAll_error_of_unknown rateA hfA l hbadA]

/-- C8: an input containing a type label outside the catalog makes both
calc_mass and calc_failure_rate fail with the unknown-type error
(KeyError in the source), whichever stage contains it; no partial or
ok result is produced. -/
theorem claim_C8_unknown_type (sT cT : List String) (aT : Option (List String))
    (conns ac : List (ℤ × ℤ))
    (hbad : (∃ t ∈ sT, knownLabel t = false) ∨ (∃ t ∈ cT, knownLabel t = false) ∨
      (∃ l, aT = some l ∧ ∃ t ∈ l, knownLabel t = false)) :
    calc_mass sT cT aT = .error .unknownType ∧
    failure_prob sT cT conns aT ac = .error .unknownType ∧
    calc_failure_rate sT cT conns aT ac = .error .unknownType := by
  have hfp := failure_prob_error_unknown sT cT conns ac aT hbad
  refine ⟨calc_mass_error_unknown sT cT aT hbad, hfp, ?_⟩
  unfold calc_failure_rate
  rw [hfp]
  rfl

theorem claim_C8_witness :
    ((∃ t ∈ ["X"], knownLabel t = false) ∨ (∃ t ∈ ["A"], knownLabel t = false) ∨
      (∃ l, (none : Option (List String)) = some l ∧ ∃ t ∈ l, knownLabel t = false)) ∧
    calc_mass ["X"] ["A"] none = .error .unknownType ∧
    failure_prob ["X"] ["A"] [] none [] = .error .unknownType ∧
    calc_failure_rate ["X"] ["A"] [] none [] = .error .unknownType := by
  have hbad : (∃ t ∈ ["X"], knownLabel t = false) ∨ (∃ t ∈ ["A"], knownLabel t = false) ∨
      (∃ l, (none : Option (List String)) = some l ∧ ∃ t ∈ l, knownLabel t = false) :=
    Or.inl ⟨"X", by simp, by rfl⟩
  obtain ⟨h1, h2, h3⟩ := claim_C8_unknown_type ["X"] ["A"] none [] [] hbad
  exact ⟨hbad, h1, h2, h3⟩

/-- C7 amended claim: an edge whose target index is outside the numpy
range [-n, n), where n is the unit count of that edge's target stage
(computers for the sensor-computer list, actuators for the
computer-actuator list), makes calc_failure_rate fail immediately with
the dangling-edge (IndexError) error, provided all type labels are
valid (types are checked first). The claim as frozen is refuted for
negative in-range indices: see the counterexample, where target index
-1 is silently accepted. -/
theorem claim_C7_dangling_edge_amended (sT cT : List String) (aT : Option (List String))
    (conns ac : List (ℤ × ℤ))
    (hS : ∀ t ∈ sT, knownLabel t = true) (hC : ∀ t ∈ cT, knownLabel t = true)
    (hA : ∀ l, aT = some l → ∀ t ∈ l, knownLabel t = true)
    (hbad : (∃ ed ∈ conns, resolveIdx cT.length ed.2 = none) ∨
      (∃ l, aT = some l ∧ ∃ ed ∈ ac, resolveIdx l.length ed.2 = none)) :
    failure_prob sT cT conns aT ac = .error .danglingEdge ∧
    calc_failure_rate sT cT conns aT ac = .error .danglingEdge := by
  obtain ⟨sR, hsR, hsLen⟩ := lookupAll_ok_of_known rateS
    (fun t h => (catalog_some_of_known t h).2.2.2.1) sT hS
  obtain ⟨cR, hcR, hcLen⟩ := lookupAll_ok_of_known rateC
    (fun t h => (catalog_some_of_known t h).2.2.2.2.1) cT hC
  have hfp : failure_prob sT cT conns aT ac = .error .danglingEdge := by
    unfold failure_prob
    rw [hsR]
    dsimp only
    rw [hcR]
    dsimp only
    rcases hbad with ⟨ed, hm, hr⟩ | ⟨l, rfl, hbadA⟩
    · have hbad2 : ∃ ed ∈ conns, resolveIdx sR.length ed.1 = none ∨
          resolveIdx cR.length ed.2 = none :=
        ⟨ed, hm, Or.inr (by rw [hcLen]; exact hr)⟩
      cases aT with
      | none =>
        dsimp only
        rw [buildMatrix_error_of_bad _ _ _ hbad2]
      | some l =>
        dsimp only
        obtain ⟨aR, haR, haLen⟩ := lookupAll_ok_of_known rateA
          (fun t h => (catalog_some_of_known t h).2.2.2.2.2) l (hA l rfl)
        rw [haR]
        dsimp only
        rw [buildMatrix_error_of_bad _ _ _ hbad2]
    · dsimp only
      obtain ⟨aR, haR, haLen⟩ := lookupAll_ok_of_known rateA
        (fun t h => (catalog_some_of_known t h).2.2.2.2.2) l (hA l rfl)
      rw [haR]
      dsimp only
      cases hm1 : buildMatrix sR.length cR.length conns with
      | error e =>
        have := buildMatrix_error_eq _ _ _ e hm1
        subst this
        rfl
      | ok m1 =>
        dsimp only
        have hbad2 : ∃ ed ∈ ac, resolveIdx cR.length ed.1 = none ∨
            resolveIdx aR.length ed.2 = none := by
          obtain ⟨ed, hm, hr⟩ := hbadA
          exact ⟨ed, hm, Or.inr (by rw [haLen]; exact hr)⟩
        rw [buildMatrix_error_of_bad _ _ _ hbad2]
  refine ⟨hfp, ?_⟩
  unfold calc_failure_rate
  rw [hfp]
  rfl

theorem claim_C7_witness :
    ((∃ ed ∈ [((0 : ℤ), (1 : ℤ))], resolveIdx (List.length ["A"]) ed.2 = none) ∨
      (∃ l, (none : Option (List String)) = some l ∧
        ∃ ed ∈ ([] : List (ℤ × ℤ)), resolveIdx l.length ed.2 = none)) ∧
    failure_prob ["A"] ["A"] [(0, 1)] none [] = .error .danglingEdge ∧
    calc_failure_rate ["A"] ["A"] [(0, 1)] none [] = .error .danglingEdge ∧
    ((∃ ed ∈ [((0 : ℤ), (0 : ℤ))], resolveIdx (List.length ["A"]) ed.2 = none) ∨
      (∃ l, (some ["A"] : Option (List String)) = some l ∧
        ∃ ed ∈ [((0 : ℤ), (2 : ℤ))], resolveIdx l.length ed.2 = none)) ∧
    failure_prob ["A"] ["A"] [(0, 0)] (some ["A"]) [(0, 2)] = .error .danglingEdge ∧
    calc_failure_rate ["A"] ["A"] [(0, 0)] (some ["A"]) [(0, 2)] = .error .danglingEdge := by
  have h1 : ∀ t ∈ ["A"], knownLabel t = true := by decide
  have haTnone : ∀ l, (none : Option (List String)) = some l →
      ∀ t ∈ l, knownLabel t = true := by
    intro l h; cases h
  have haTsome : ∀ l, (some ["A"] : Option (List String)) = some l →
      ∀ t ∈ l, knownLabel t = true := by
    intro l h; cases h; exact h1
  have hb1 : (∃ ed ∈ [((0 : ℤ), (1 : ℤ))], resolveIdx (List.length ["A"]) ed.2 = none) ∨
      (∃ l, (none : Option (List String)) = some l ∧
        ∃ ed ∈ ([] : List (ℤ × ℤ)), resolveIdx l.length ed.2 = none) :=
    Or.inl ⟨(0, 1), by simp, by decide⟩
  have hb2 : (∃ ed ∈ [((0 : ℤ), (0 : ℤ))], resolveIdx (List.length ["A"]) ed.2 = none) ∨
      (∃ l, (some ["A"] : Option (List String)) = some l ∧
        ∃ ed ∈ [((0 : ℤ), (2 : ℤ))], resolveIdx l.length ed.2 = none) :=
    Or.inr ⟨["A"], rfl, ⟨(0, 2), by simp, by decide⟩⟩
  obtain ⟨ha, hb⟩ :=
    claim_C7_dangling_edge_amended ["A"] ["A"] none [(0, 1)] [] h1 h1 haTnone hb1
  obtain ⟨hc, hd⟩ :=
    claim_C7_dangling_edge_amended ["A"] ["A"] (some ["A"]) [(0, 0)] [(0, 2)] h1 h1
      haTsome hb2
  exact ⟨hb1, ha, hb, hb2, hc, hd⟩

/-- C7 counterexample to the claim as frozen: the edge (0, -1) has
target index -1, which is not a valid 0-based unit index of the
one-computer target stage, yet calc_failure_rate does not fail: numpy
index semantics resolve -1 to the last unit (index 0), so the edge is
silently reinterpreted as (0, 0) and the evaluation succeeds. -/
theorem claim_C7_counterexample :
    resolveIdx 1 (-1) = some 0 ∧
    failure_prob ["A"] ["A"] [(0, -1)] none [] = .ok (249985/1000000000) ∧
    ∀ e : GNCError, failure_prob ["A"] ["A"] [(0, -1)] none [] ≠ .error e := by
  have h2form : ∀ s c : ℚ, branch true [s] [true] [([[true]], [c])] = s + (1 - s) * c := by
    intro s c
    simp [branch, retainedScenarios, scenarios, occProb, connectedTargets, maskedRates]
  have h1 : lookupAll rateS ["A"] = .ok [15/100000] := by norm_num [lookupAll, rateS]
  have h2 : lookupAll rateC ["A"] = .ok [1/10000] := by norm_num [lookupAll, rateC]
  have h4 : buildMatrix 1 1 [((0 : ℤ), (-1 : ℤ))] = .ok [[true]] := by
    norm_num [buildMatrix, buildMatrixAux, resolveIdx, setEntry]
  have hprob : failure_prob ["A"] ["A"] [(0, -1)] none [] = .ok (249985/1000000000) := by
    rw [failure_prob_eval2 _ _ _ _ _ _ _ h1 h2 h4]
    have hmask : List.replicate (List.length [(15 : ℚ)/100000]) true = [true] := rfl
    rw [hmask, h2form]
    norm_num
  exact ⟨by decide, hprob, fun e h => by rw [hprob] at h; cases h⟩

/-- C6: the source applies np.log10 unconditionally; there is no
domain check of any kind between the recursive enumeration and the
logarithm, so whenever the enumeration produces a probability p the
function returns log10 p rather than raising an undefined-metric error,
and the enumeration does return exactly 0 when all rates are 0 (a case
the catalog cannot produce, but which floating-point underflow can). -/
theorem claim_C6_log_applied_unconditionally :
    (∀ (sT cT : List String) (conns ac : List (ℤ × ℤ)) (aT : Option (List String)) (p : ℚ),
      failure_prob sT cT conns aT ac = .ok p →
      calc_failure_rate sT cT conns aT ac = .ok (Real.logb 10 (p : ℝ))) ∧
    branch true [0] [true] [([[true]], [(0 : ℚ)])] = 0 := by
  constructor
  · intro sT cT conns ac aT p h
    unfold calc_failure_rate
    rw [h]
    rfl
  · simp [branch, retainedScenarios, scenarios, occProb, connectedTargets, maskedRates]

theorem claim_C6_witness :
    failure_prob ["A"] ["A"] [(0, 0)] none [] = .ok (249985/1000000000) ∧
    calc_failure_rate ["A"] ["A"] [(0, 0)] none [] =
      .ok (Real.logb 10 (((249985 : ℚ)/1000000000 : ℚ) : ℝ)) := by
  have h2form : ∀ s c : ℚ, branch true [s] [true] [([[true]], [c])] = s + (1 - s) * c := by
    intro s c
    simp [branch, retainedScenarios, scenarios, occProb, connectedTargets, maskedRates]
  have h1 : lookupAll rateS ["A"] = .ok [15/100000] := by norm_num [lookupAll, rateS]
  have h2 : lookupAll rateC ["A"] = .ok [1/10000] := by norm_num [lookupAll, rateC]
  have h4 : buildMatrix 1 1 [((0 : ℤ), (0 : ℤ))] = .ok [[true]] := by
    norm_num [buildMatrix, buildMatrixAux, resolveIdx, setEntry]
  have hprob : failure_prob ["A"] ["A"] [(0, 0)] none [] = .ok (249985/1000000000) := by
    rw [failure_prob_eval2 _ _ _ _ _ _ _ h1 h2 h4]
    have hmask : List.replicate (List.length [(15 : ℚ)/100000]) true = [true] := rfl
    rw [hmask, h2form]
    norm_num
  exact ⟨hprob,
    claim_C6_log_applied_unconditionally.1 ["A"] ["A"] [(0, 0)] [] none _ hprob⟩

/-! ### The connection matrix as a function of the edge set -/

/-- Entry (i, j) of a matrix, false outside the bounds. -/
def getEntry (m : Mat) (i j : ℕ) : Bool := ((m.getD i []).getD j false)

theorem getD_set_self {α : Type} (l : List α) (i : ℕ) (a d : α) (h : i < l.length) :
    (l.set i a).getD i d = a := by
  induction l generalizing i with
  | nil => simp at h
  | cons x xs ih =>
    cases i with
    | zero => rfl
    | succ k => exact ih k (by simpa using h)

theorem getD_set_ne {α : Type} (l : List α) (i k : ℕ) (a : α) (d : α) (h : i ≠ k) :
    (l.set i a).getD k d = l.getD k d := by
  induction l generalizing i k with
  | nil => rfl
  | cons x xs ih =>
    cases i with
    | zero => cases k with
      | zero => exact absurd rfl h
      | succ k2 => rfl
    | succ i2 => cases k with
      | zero => rfl
      | succ k2 => exact ih i2 k2 (by omega)

theorem getD_out_of_range {α : Type} (l : List α) (i : ℕ) (d : α) (h : l.length ≤ i) :
    l.getD i d = d := by
  induction l generalizing i with
  | nil => cases i <;> rfl
  | cons x xs ih =>
    cases i with
    | zero => simp at h
    | succ k => exact ih k (by simpa using h)

theorem resolveIdx_lt (n : ℕ) (x : ℤ) (i : ℕ) (h : resolveIdx n x = some i) : i < n := by
  unfold resolveIdx at h
  split_ifs at h with h1 h2
  · cases h; omega
  · cases h; omega

theorem getEntry_setEntry (m : Mat) (i j i' j' : ℕ) (hi : i < m.length)
    (hj : j < (m.getD i []).length) :
    getEntry (setEntry m i j) i' j' =
      if i' = i ∧ j' = j then true else getEntry m i' j' := by
  unfold getEntry setEntry
  by_cases hii : i' = i
  · subst hii
    rw [getD_set_self m i' _ [] hi]
    by_cases hjj : j' = j
    · subst hjj
      rw [getD_set_self _ j' _ _ hj]
      simp
    · rw [getD_set_ne _ j j' _ _ fun e => hjj e.symm]
      simp [hjj]
  · rw [getD_set_ne m i i' _ [] fun e => hii e.symm]
    simp [hii]

theorem buildMatrixAux_ok_char (nS nT : ℕ) :
    ∀ (edges : List (ℤ × ℤ)) (acc : Mat),
      (∀ ed ∈ edges, (∃ i, resolveIdx nS ed.1 = some i) ∧ (∃ j, resolveIdx nT ed.2 = some j)) →
      acc.length = nS → (∀ i, i < nS → (acc.getD i []).length = nT) →
      ∃ M, buildMatrixAux nS nT edges acc = .ok M ∧ M.length = nS ∧
        (∀ i, i < nS → (M.getD i []).length = nT) ∧
        (∀ i j, getEntry M i j = true ↔ (getEntry acc i j = true ∨
          ∃ ed ∈ edges, resolveIdx nS ed.1 = some i ∧ resolveIdx nT ed.2 = some j)) := by
  intro edges
  induction edges with
  | nil =>
    intro acc _ hlen hrows
    exact ⟨acc, rfl, hlen, hrows, fun i j => by simp⟩
  | cons ed es ih =>
    intro acc hgood hlen hrows
    obtain ⟨⟨i0, hi0⟩, ⟨j0, hj0⟩⟩ := hgood ed (List.mem_cons_self _ _)
    have hi0n : i0 < nS := resolveIdx_lt _ _ _ hi0
    have hj0n : j0 < nT := resolveIdx_lt _ _ _ hj0
    have hacc' : (setEntry acc i0 j0).length = nS := by
      rw [setEntry, List.length_set, hlen]
    have hrows' : ∀ i, i < nS → ((setEntry acc i0 j0).getD i []).length = nT := by
      intro i hiS
      by_cases hii : i = i0
      · subst hii
        rw [setEntry, getD_set_self acc i _ [] (by omega), List.length_set]
        exact hrows i hiS
      · rw [setEntry, getD_set_ne acc i0 i _ [] fun e => hii e.symm]
        exact hrows i hiS
    obtain ⟨M, hM, hMlen, hMrows, hMent⟩ := ih (setEntry acc i0 j0)
      (fun e he => hgood e (List.mem_cons_of_mem _ he)) hacc' hrows'
    refine ⟨M, ?_, hMlen, hMrows, ?_⟩
    · rw [show buildMatrixAux nS nT (ed :: es) acc =
        (match resolveIdx nS ed.1, resolveIdx nT ed.2 with
          | some i, some j => buildMatrixAux nS nT es (setEntry acc i j)
          | _, _ => .error .danglingEdge) from rfl, hi0, hj0]
      exact hM
    · intro i j
      rw [hMent i j, getEntry_setEntry acc i0 j0 i j (by omega)
        (by rw [hrows i0 hi0n]; omega)]
      constructor
      · rintro (hacc | ⟨e2, he2, hr2⟩)
        · by_cases hij : i = i0 ∧ j = j0
          · exact Or.inr ⟨ed, List.mem_cons_self _ _, by rw [hij.1]; exact hi0,
              by rw [hij.2]; exact hj0⟩
          · rw [if_neg hij] at hacc
            exact Or.inl hacc
        · exact Or.inr ⟨e2, List.mem_cons_of_mem _ he2, hr2⟩
      · rintro (hacc | ⟨e2, he2, hr2⟩)
        · by_cases hij : i = i0 ∧ j = j0
          · rw [if_pos hij]; exact Or.inl rfl
          · rw [if_neg hij]; exact Or.inl hacc
        · rcases List.mem_cons.mp he2 with rfl | hmem2
          · left
            rw [hi0, hj0] at hr2
            obtain ⟨ha, hb⟩ := hr2
            injection ha with ha'
            injection hb with hb'
            rw [if_pos ⟨ha'.symm, hb'.symm⟩]
          · exact Or.inr ⟨e2, hmem2, hr2⟩

theorem bool_eq_of_iff {a b : Bool} (h : a = true ↔ b = true) : a = b := by
  cases a <;> cases b <;> simp_all

theorem mat_ext (nS nT : ℕ) (M M2 : Mat) (hlenM : M.length = nS) (hlenM2 : M2.length = nS)
    (hrowsM : ∀ i, i < nS → (M.getD i []).length = nT)
    (hrowsM2 : ∀ i, i < nS → (M2.getD i []).length = nT)
    (hent : ∀ i j, getEntry M i j = getEntry M2 i j) : M = M2 := by
  apply List.ext_getElem (by rw [hlenM, hlenM2])
  intro i hi1 hi2
  have hiS : i < nS := by omega
  have hrowD : M.getD i [] = M[i] := List.getD_eq_getElem M [] (by omega)
  have hrowD2 : M2.getD i [] = M2[i] := List.getD_eq_getElem M2 [] (by omega)
  apply List.ext_getElem
  · rw [← hrowD, ← hrowD2, hrowsM i hiS, hrowsM2 i hiS]
  · intro j hj1 hj2
    have := hent i j
    unfold getEntry at this
    rw [hrowD, hrowD2] at this
    rw [List.getD_eq_getElem M[i] false hj1, List.getD_eq_getElem M2[i] false hj2] at this
    exact this

theorem replicate_entry_false (nS nT : ℕ) (i j : ℕ) :
    getEntry (List.replicate nS (List.replicate nT false)) i j = false := by
  unfold getEntry
  have hrow : (List.replicate nS (List.replicate nT false)).getD i [] = [] ∨
      (List.replicate nS (List.replicate nT false)).getD i [] = List.replicate nT false := by
    by_cases hi : i < nS
    · right
      rw [List.getD_eq_getElem _ [] (by simpa using hi), List.getElem_replicate]
    · left
      exact getD_out_of_range _ _ _ (by rw [List.length_replicate]; omega)
  rcases hrow with h | h <;> rw [h]
  · rfl
  · by_cases hj : j < nT
    · rw [List.getD_eq_getElem _ false (by simpa using hj), List.getElem_replicate]
    · exact getD_out_of_range _ _ _ (by rw [List.length_replicate]; omega)

/-- The matrix built from an edge list depends only on the set of edges:
two lists with the same members produce identical results (also in the
error case, where both raise the same dangling-edge error). -/
theorem buildMatrix_congr (nS nT : ℕ) (edges edges' : List (ℤ × ℤ))
    (hmem : ∀ ed, ed ∈ edges ↔ ed ∈ edges') :
    buildMatrix nS nT edges = buildMatrix nS nT edges' := by
  by_cases hgood : ∀ ed ∈ edges,
      (∃ i, resolveIdx nS ed.1 = some i) ∧ (∃ j, resolveIdx nT ed.2 = some j)
  · have hgood' : ∀ ed ∈ edges',
        (∃ i, resolveIdx nS ed.1 = some i) ∧ (∃ j, resolveIdx nT ed.2 = some j) :=
      fun ed hed => hgood ed ((hmem ed).mpr hed)
    have hlen0 : (List.replicate nS (List.replicate nT false)).length = nS := by simp
    have hrows0 : ∀ i, i < nS →
        ((List.replicate nS (List.replicate nT false)).getD i []).length = nT := by
      intro i hi
      rw [List.getD_eq_getElem _ [] (by simpa using hi), List.getElem_replicate]
      simp
    obtain ⟨M, hM, hMlen, hMrows, hMent⟩ :=
      buildMatrixAux_ok_char nS nT edges _ hgood hlen0 hrows0
    obtain ⟨M2, hM2, hM2len, hM2rows, hM2ent⟩ :=
      buildMatrixAux_ok_char nS nT edges' _ hgood' hlen0 hrows0
    rw [buildMatrix, hM, buildMatrix, hM2]
    congr 1
    refine mat_ext nS nT M M2 hMlen hM2len hMrows hM2rows fun i j => bool_eq_of_iff ?_
    rw [hMent i j, hM2ent i j]
    simp only [replicate_entry_false, Bool.false_eq_true, false_or]
    constructor
    · rintro ⟨ed, hed, hr⟩; exact ⟨ed, (hmem ed).mp hed, hr⟩
    · rintro ⟨ed, hed, hr⟩; exact ⟨ed, (hmem ed).mpr hed, hr⟩
  · have hex : ∃ ed ∈ edges, resolveIdx nS ed.1 = none ∨ resolveIdx nT ed.2 = none := by
      by_contra hno
      apply hgood
      intro ed hed
      constructor
      · cases h1 : resolveIdx nS ed.1 with
        | none => exact absurd ⟨ed, hed, Or.inl h1⟩ hno
        | some i => exact ⟨i, rfl⟩
      · cases h2 : resolveIdx nT ed.2 with
        | none => exact absurd ⟨ed, hed, Or.inr h2⟩ hno
        | some j => exact ⟨j, rfl⟩
    obtain ⟨ed, hed, hbad2⟩ := hex
    rw [buildMatrix_error_of_bad nS nT edges ⟨ed, hed, hbad2⟩,
      buildMatrix_error_of_bad nS nT edges' ⟨ed, (hmem ed).mp hed, hbad2⟩]

/-- C10: calc_failure_rate depends on each edge list only through its
set of (source, target) pairs, because the edges are materialized into
a boolean adjacency matrix before the enumeration: replacing either
edge list by any list with the same members (any permutation, any
duplication of existing edges) leaves the result unchanged. -/
theorem claim_C10_edge_set_invariance (sT cT : List String) (aT : Option (List String))
    (conns conns' ac ac' : List (ℤ × ℤ))
    (h1 : ∀ ed, ed ∈ conns ↔ ed ∈ conns') (h2 : ∀ ed, ed ∈ ac ↔ ed ∈ ac') :
    failure_prob sT cT conns aT ac = failure_prob sT cT conns' aT ac' ∧
    calc_failure_rate sT cT conns aT ac = calc_failure_rate sT cT conns' aT ac' := by
  have hc : ∀ nS nT, buildMatrix nS nT conns = buildMatrix nS nT conns' :=
    fun nS nT => buildMatrix_congr nS nT conns conns' h1
  have ha : ∀ nS nT, buildMatrix nS nT ac = buildMatrix nS nT ac' :=
    fun nS nT => buildMatrix_congr nS nT ac ac' h2
  have hfp : failure_prob sT cT conns aT ac = failure_prob sT cT conns' aT ac' := by
    unfold failure_prob
    simp only [hc, ha]
  exact ⟨hfp, by unfold calc_failure_rate; rw [hfp]⟩

theorem claim_C10_witness :
    (∀ ed : ℤ × ℤ, ed ∈ [((0 : ℤ), (0 : ℤ)), (0, 0)] ↔ ed ∈ [((0 : ℤ), (0 : ℤ))]) ∧
    failure_prob ["A"] ["A"] [(0, 0), (0, 0)] none [] =
      failure_prob ["A"] ["A"] [(0, 0)] none [] ∧
    calc_failure_rate ["A"] ["A"] [(0, 0), (0, 0)] none [] =
      calc_failure_rate ["A"] ["A"] [(0, 0)] none [] := by
  have h1 : ∀ ed : ℤ × ℤ, ed ∈ [((0 : ℤ), (0 : ℤ)), (0, 0)] ↔ ed ∈ [((0 : ℤ), (0 : ℤ))] := by
    intro ed; simp
  have h2 : ∀ ed : ℤ × ℤ, ed ∈ ([] : List (ℤ × ℤ)) ↔ ed ∈ ([] : List (ℤ × ℤ)) :=
    fun ed => Iff.rfl
  obtain ⟨ha, hb⟩ :=
    claim_C10_edge_set_invariance ["A"] ["A"] none [(0, 0), (0, 0)] [(0, 0)] [] [] h1 h2
  exact ⟨h1, ha, hb⟩

/-! ### Rates coming from the catalog are probabilities -/

theorem rateS_bounds (t : String) (v : ℚ) (h : rateS t = some v) : 0 ≤ v ∧ v ≤ 1 := by
  unfold rateS at h
  split_ifs at h <;> cases h <;> norm_num

theorem rateC_bounds (t : String) (v : ℚ) (h : rateC t = some v) : 0 ≤ v ∧ v ≤ 1 := by
  unfold rateC at h
  split_ifs at h <;> cases h <;> norm_num

theorem rateA_bounds (t : String) (v : ℚ) (h : rateA t = some v) : 0 ≤ v ∧ v ≤ 1 := by
  unfold rateA at h
  split_ifs at h <;> cases h <;> norm_num

/-- Whatever failure probability the pipeline produces lies in [0, 1]. -/
theorem failure_prob_bounds (sT cT : List String) (conns ac : List (ℤ × ℤ))
    (aT : Option (List String)) (p : ℚ)
    (h : failure_prob sT cT conns aT ac = .ok p) : 0 ≤ p ∧ p ≤ 1 := by
  unfold failure_prob at h
  cases hs : lookupAll rateS sT with
  | error e => rw [hs] at h; cases h
  | ok sR =>
    rw [hs] at h
    dsimp only at h
    have hsB : ratesBounded sR := by
      intro v hv
      obtain ⟨t, _, hsome⟩ := lookupAll_ok_mem rateS sT sR hs v hv
      exact rateS_bounds t v hsome
    cases hc : lookupAll rateC cT with
    | error e => rw [hc] at h; cases h
    | ok cR =>
      rw [hc] at h
      dsimp only at h
      have hcB : ratesBounded cR := by
        intro v hv
        obtain ⟨t, _, hsome⟩ := lookupAll_ok_mem rateC cT cR hc v hv
        exact rateC_bounds t v hsome
      cases aT with
      | none =>
        dsimp only at h
        cases hm : buildMatrix sR.length cR.length conns with
        | error e => rw [hm] at h; cases h
        | ok m1 =>
          rw [hm] at h
          cases h
          exact branch_bounds true m1 cR sR _ [] hsB hcB (fun p hp => by simp at hp)
            (by simp)
      | some l =>
        dsimp only at h
        cases hA : lookupAll rateA l with
        | error e => rw [hA] at h; cases h
        | ok aR =>
          rw [hA] at h
          dsimp only at h
          have haB : ratesBounded aR := by
            intro v hv
            obtain ⟨t, _, hsome⟩ := lookupAll_ok_mem rateA l aR hA v hv
            exact rateA_bounds t v hsome
          cases hm : buildMatrix sR.length cR.length conns with
          | error e => rw [hm] at h; cases h
          | ok m1 =>
            rw [hm] at h
            dsimp only at h
            cases hm2 : buildMatrix cR.length aR.length ac with
            | error e => rw [hm2] at h; cases h
            | ok m2 =>
              rw [hm2] at h
              cases h
              refine branch_bounds true m1 cR sR _ [(m2, aR)] hsB hcB ?_ (by simp)
              intro p hp
              rw [List.mem_singleton] at hp
              rw [hp]
              exact haB

/-- C9: with all component failure rates in [0, 1] every call of the
recursive enumeration returns a probability in [0, 1]; the full pipeline
therefore only produces probabilities in [0, 1], and whenever the
probability is positive the reported log10 metric is nonpositive. -/
theorem claim_C9_probability_bounds :
    (∀ (isRoot : Bool) (mat : Mat) (tr rs : List ℚ) (mask : List Bool)
        (rest : List (Mat × List ℚ)),
      ratesBounded rs → ratesBounded tr → lvBounded rest → mask.length ≤ rs.length →
      0 ≤ branch isRoot rs mask ((mat, tr) :: rest) ∧
        branch isRoot rs mask ((mat, tr) :: rest) ≤ 1) ∧
    (∀ (sT cT : List String) (conns ac : List (ℤ × ℤ)) (aT : Option (List String)) (p : ℚ),
      failure_prob sT cT conns aT ac = .ok p →
      (0 ≤ p ∧ p ≤ 1) ∧ (0 < p → Real.logb 10 (p : ℝ) ≤ 0)) := by
  constructor
  · exact fun isRoot mat tr rs mask rest h1 h2 h3 h4 =>
      branch_bounds isRoot mat tr rs mask rest h1 h2 h3 h4
  · intro sT cT conns ac aT p h
    obtain ⟨h0, h1⟩ := failure_prob_bounds sT cT conns ac aT p h
    refine ⟨⟨h0, h1⟩, fun _ => ?_⟩
    refine Real.logb_nonpos (by norm_num) ?_ ?_
    · exact_mod_cast h0
    · exact_mod_cast h1

theorem claim_C9_witness :
    ratesBounded [(1 : ℚ)/2] ∧
    (0 ≤ branch true [(1 : ℚ)/2] [true] [([[true]], [(1 : ℚ)/3])] ∧
      branch true [(1 : ℚ)/2] [true] [([[true]], [(1 : ℚ)/3])] ≤ 1) ∧
    failure_prob ["A"] ["A"] [(0, 0)] none [] = .ok (249985/1000000000) ∧
    ((0 ≤ (249985/1000000000 : ℚ) ∧ (249985/1000000000 : ℚ) ≤ 1) ∧
      (0 < (249985/1000000000 : ℚ) →
        Real.logb 10 (((249985/1000000000 : ℚ) : ℚ) : ℝ) ≤ 0)) := by
  have hb2 : ratesBounded [(1 : ℚ)/2] := by
    intro r hr
    rw [List.mem_singleton] at hr
    rw [hr]
    norm_num
  have hb3 : ratesBounded [(1 : ℚ)/3] := by
    intro r hr
    rw [List.mem_singleton] at hr
    rw [hr]
    norm_num
  have h2form : ∀ s c : ℚ, branch true [s] [true] [([[true]], [c])] = s + (1 - s) * c := by
    intro s c
    simp [branch, retainedScenarios, scenarios, occProb, connectedTargets, maskedRates]
  have h1 : lookupAll rateS ["A"] = .ok [15/100000] := by norm_num [lookupAll, rateS]
  have h2 : lookupAll rateC ["A"] = .ok [1/10000] := by norm_num [lookupAll, rateC]
  have h4 : buildMatrix 1 1 [((0 : ℤ), (0 : ℤ))] = .ok [[true]] := by
    norm_num [buildMatrix, buildMatrixAux, resolveIdx, setEntry]
  have hprob : failure_prob ["A"] ["A"] [(0, 0)] none [] = .ok (249985/1000000000) := by
    rw [failure_prob_eval2 _ _ _ _ _ _ _ h1 h2 h4]
    have hmask : List.replicate (List.length [(15 : ℚ)/100000]) true = [true] := rfl
    rw [hmask, h2form]
    norm_num
  exact ⟨hb2,
    claim_C9_probability_bounds.1 true [[true]] [(1 : ℚ)/3] [(1 : ℚ)/2] [true] [] hb2 hb3
      (fun p hp => by simp at hp) (by simp),
    hprob,
    claim_C9_probability_bounds.2 ["A"] ["A"] [(0, 0)] [] none _ hprob⟩

/-! ### Monotonicity machinery: masks ordered by pointwise implication -/

/-- Pointwise disjunction of two boolean masks (truncating like zipWith;
all uses have aligned lengths). -/
def orMask : List Bool → List Bool → List Bool := List.zipWith fun x y => x || y

/-- mask a is contained in mask b: wherever a is set, so is b. -/
def maskLE (a b : List Bool) : Prop := List.Forall₂ (fun x y => x = true → y = true) a b

def ratesLE (a b : List ℚ) : Prop := List.Forall₂ (· ≤ ·) a b

/-- Shape discipline of a level list relative to the source-stage unit
count: each connection matrix has at least one row per source unit and
rows at least as wide as the target stage. The matrices built by
buildMatrix from well-typed inputs satisfy it with equalities. -/
def lvShape : ℕ → List (Mat × List ℚ) → Prop
  | _, [] => True
  | n, (mat, tr) :: rest =>
    n ≤ mat.length ∧ (∀ row ∈ mat, tr.length ≤ row.length) ∧ lvShape tr.length rest

/-- The scenario sum of one level with an extra set of already-connected
targets: the generic form in which the head-unit decomposition of fullS
can be stated. -/
def scenSum (rs : List ℚ) (mask : List Bool) (mat : Mat) (tr : List ℚ)
    (rest : List (Mat × List ℚ)) (base : List Bool) : ℚ :=
  ((scenarios mask).map fun ok =>
    occProb rs mask ok *
      fullS tr (orMask base (connectedTargets tr.length mat ok)) rest).sum

theorem orMask_length (a b : List Bool) : (orMask a b).length = min a.length b.length := by
  unfold orMask
  exact List.length_zipWith _ _ _

theorem orMask_false_left (b : List Bool) (n : ℕ) (h : b.length ≤ n) :
    orMask (List.replicate n false) b = b := by
  induction b generalizing n with
  | nil => cases n <;> rfl
  | cons x xs ih =>
    cases n with
    | zero => simp at h
    | succ k =>
      show (false || x) :: orMask (List.replicate k false) xs = x :: xs
      rw [Bool.false_or, ih k (by simpa using h)]

theorem orMask_false_right (a : List Bool) (n : ℕ) (h : a.length ≤ n) :
    orMask a (List.replicate n false) = a := by
  induction a generalizing n with
  | nil => rfl
  | cons x xs ih =>
    cases n with
    | zero => simp at h
    | succ k =>
      show (x || false) :: orMask xs (List.replicate k false) = x :: xs
      rw [Bool.or_false, ih k (by simpa using h)]

theorem orMask_assoc (a b c : List Bool) :
    orMask a (orMask b c) = orMask (orMask a b) c := by
  induction a generalizing b c with
  | nil => rfl
  | cons x xs ih =>
    cases b with
    | nil => rfl
    | cons y ys =>
      cases c with
      | nil => rfl
      | cons z zs =>
        show (x || (y || z)) :: orMask xs (orMask ys zs) = ((x || y) || z) :: _
        rw [Bool.or_assoc, ih ys zs]
        rfl

theorem maskLE_orMask_left (base row : List Bool) (h : base.length ≤ row.length) :
    maskLE base (orMask base row) := by
  induction base generalizing row with
  | nil => exact List.Forall₂.nil
  | cons x xs ih =>
    cases row with
    | nil => simp at h
    | cons y ys =>
      exact List.Forall₂.cons (fun hx => by rw [hx]; rfl) (ih ys (by simpa using h))

theorem orMask_mono_left {a a' : List Bool} (h : maskLE a a') (c : List Bool) :
    maskLE (orMask a c) (orMask a' c) := by
  induction h generalizing c with
  | nil => exact List.Forall₂.nil
  | cons hab htail ih =>
    cases c with
    | nil => exact List.Forall₂.nil
    | cons z zs =>
      refine List.Forall₂.cons ?_ (ih zs)
      rename_i x x' _ _
      intro hx
      simp only [Bool.or_eq_true] at hx ⊢
      rcases hx with hx1 | hx2
      · exact Or.inl (hab hx1)
      · exact Or.inr hx2

theorem maskLE_length {a b : List Bool} (h : maskLE a b) : a.length = b.length :=
  List.Forall₂.length_eq h

theorem ratesLE_length {a b : List ℚ} (h : ratesLE a b) : a.length = b.length :=
  List.Forall₂.length_eq h

theorem connectedTargets_length_eq (nTgt : ℕ) (mat : Mat) (ok : List Bool)
    (hrows : ∀ row ∈ mat, nTgt ≤ row.length) :
    (connectedTargets nTgt mat ok).length = nTgt := by
  induction mat generalizing ok with
  | nil => cases ok <;> simp [connectedTargets]
  | cons row mat ih =>
    cases ok with
    | nil => simp [connectedTargets]
    | cons b bs =>
      have hrow := hrows row (List.mem_cons_self _ _)
      have ihr := ih bs fun r hr => hrows r (List.mem_cons_of_mem _ hr)
      show (if b then List.zipWith _ row (connectedTargets nTgt mat bs)
          else connectedTargets nTgt mat bs).length = nTgt
      cases b with
      | false => simpa using ihr
      | true =>
        simp only [if_pos, List.length_zipWith, ihr]
        omega

theorem maskedRates_cons (r : ℚ) (rs : List ℚ) (b : Bool) (c : List Bool) :
    maskedRates (r :: rs) (b :: c) =
      if b then r :: maskedRates rs c else maskedRates rs c := by
  cases b <;> simp [maskedRates]

theorem fullS_cons_scenSum (rs : List ℚ) (mask : List Bool) (mat : Mat) (tr : List ℚ)
    (rest : List (Mat × List ℚ)) :
    fullS rs mask ((mat, tr) :: rest) =
      scenSum rs mask mat tr rest (List.replicate tr.length false) := by
  show ((scenarios mask).map _).sum = ((scenarios mask).map _).sum
  refine congrArg _ (List.map_congr_left fun ok _ => ?_)
  rw [orMask_false_left _ _ (connectedTargets_length_le tr.length mat ok)]

theorem scenSum_nil_mask (rs : List ℚ) (mat : Mat) (tr : List ℚ)
    (rest : List (Mat × List ℚ)) (base : List Bool) (hbase : base.length ≤ tr.length) :
    scenSum rs [] mat tr rest base = fullS tr base rest := by
  have hocc : occProb rs [] [] = 1 := by cases rs <;> rfl
  have hconn : connectedTargets tr.length mat [] = List.replicate tr.length false := by
    cases mat <;> rfl
  show (List.map _ [[]]).sum = _
  simp only [List.map_cons, List.map_nil, List.sum_cons, List.sum_nil, add_zero]
  rw [hocc, hconn, orMask_false_right base tr.length hbase, one_mul]

/-- The head-unit decomposition of the scenario sum: conditioning on the
survival of the first masked unit. -/
theorem scenSum_cons (r : ℚ) (rs : List ℚ) (m : Bool) (ms : List Bool) (row : List Bool)
    (mat : Mat) (tr : List ℚ) (rest : List (Mat × List ℚ)) (base : List Bool) :
    scenSum (r :: rs) (m :: ms) (row :: mat) tr rest base =
      if m then
        r * scenSum rs ms mat tr rest base +
          (1 - r) * scenSum rs ms mat tr rest (orMask base row)
      else scenSum rs ms mat tr rest base := by
  have hfalse : ∀ σ : List Bool,
      occProb (r :: rs) (m :: ms) (false :: σ) *
        fullS tr (orMask base (connectedTargets tr.length (row :: mat) (false :: σ))) rest =
      (if m then r else 1) *
        (occProb rs ms σ * fullS tr (orMask base (connectedTargets tr.length mat σ)) rest) := by
    intro σ
    show (if m then (if false then 1 - r else r) else 1) * occProb rs ms σ * _ = _
    rw [show connectedTargets tr.length (row :: mat) (false :: σ) =
      connectedTargets tr.length mat σ from rfl]
    cases m <;> simp <;> ring
  have htrue : ∀ σ : List Bool,
      occProb (r :: rs) (m :: ms) (true :: σ) *
        fullS tr (orMask base (connectedTargets tr.length (row :: mat) (true :: σ))) rest =
      (if m then 1 - r else 1) *
        (occProb rs ms σ *
          fullS tr (orMask (orMask base row) (connectedTargets tr.length mat σ)) rest) := by
    intro σ
    show (if m then (if true then 1 - r else r) else 1) * occProb rs ms σ * _ = _
    rw [show connectedTargets tr.length (row :: mat) (true :: σ) =
      List.zipWith (fun x y => x || y) row (connectedTargets tr.length mat σ) from rfl]
    rw [show List.zipWith (fun x y => x || y) row (connectedTargets tr.length mat σ) =
      orMask row (connectedTargets tr.length mat σ) from rfl]
    rw [orMask_assoc]
    cases m <;> simp <;> ring
  show ((scenarios (m :: ms)).map _).sum = _
  rw [sum_map_scenarios_cons]
  have hsum_false : ((scenarios ms).map fun σ =>
      occProb (r :: rs) (m :: ms) (false :: σ) *
        fullS tr (orMask base (connectedTargets tr.length (row :: mat) (false :: σ))) rest).sum =
      (if m then r else 1) * scenSum rs ms mat tr rest base := by
    rw [show scenSum rs ms mat tr rest base = ((scenarios ms).map fun σ =>
      occProb rs ms σ * fullS tr (orMask base (connectedTargets tr.length mat σ)) rest).sum
      from rfl, ← List.sum_map_mul_left]
    exact congrArg _ (List.map_congr_left fun σ _ => hfalse σ)
  have hsum_true : ((scenarios ms).map fun σ =>
      occProb (r :: rs) (m :: ms) (true :: σ) *
        fullS tr (orMask base (connectedTargets tr.length (row :: mat) (true :: σ))) rest).sum =
      (if m then 1 - r else 1) * scenSum rs ms mat tr rest (orMask base row) := by
    rw [show scenSum rs ms mat tr rest (orMask base row) = ((scenarios ms).map fun σ =>
      occProb rs ms σ *
        fullS tr (orMask (orMask base row) (connectedTargets tr.length mat σ)) rest).sum
      from rfl, ← List.sum_map_mul_left]
    exact congrArg _ (List.map_congr_left fun σ _ => htrue σ)
  rw [hsum_false, hsum_true]
  cases m <;> simp

theorem prod_masked_anti : ∀ (rs : List ℚ) (c c' : List Bool), ratesBounded rs →
    maskLE c' c → (maskedRates rs c).prod ≤ (maskedRates rs c').prod := by
  intro rs
  induction rs with
  | nil =>
    intro c c' _ _
    have h1 : maskedRates [] c = [] := by simp [maskedRates]
    have h2 : maskedRates [] c' = [] := by simp [maskedRates]
    rw [h1, h2]
  | cons r rs ih =>
    intro c c' hrs h
    cases h with
    | nil => exact le_refl _
    | cons hxy htail =>
      rename_i x' x cs' cs
      obtain ⟨hr0, hr1⟩ := hrs r (List.mem_cons_self _ _)
      have hrs' : ratesBounded rs := fun v hv => hrs v (List.mem_cons_of_mem _ hv)
      have ihh := ih cs cs' hrs' htail
      have hP0 : 0 ≤ (maskedRates rs cs).prod :=
        (list_prod_bounds fun v hv => hrs' v (maskedRates_subset v hv)).1
      rw [maskedRates_cons, maskedRates_cons]
      cases x with
      | false =>
        have hx' : x' = false := by
          cases x' with
          | false => rfl
          | true => exact absurd (hxy rfl) (by simp)
        rw [hx']
        simpa using ihh
      | true =>
        cases x' with
        | true =>
          simp only [if_pos, List.prod_cons]
          exact mul_le_mul_of_nonneg_left ihh hr0
        | false =>
          simp only [if_pos, if_neg, List.prod_cons, Bool.false_eq_true]
          calc r * (maskedRates rs cs).prod ≤ 1 * (maskedRates rs cs).prod :=
              mul_le_mul_of_nonneg_right hr1 hP0
            _ = (maskedRates rs cs).prod := one_mul _
            _ ≤ (maskedRates rs cs').prod := ihh

/-- Antitonicity in the connectivity mask: disconnecting units (or
keeping fewer of them reachable) can only increase the unguarded
failure sum. -/
theorem fullS_anti : ∀ (lv : List (Mat × List ℚ)) (rs : List ℚ) (mask mask' : List Bool),
    ratesBounded rs → lvBounded lv → maskLE mask' mask → mask.length ≤ rs.length →
    lvShape rs.length lv → fullS rs mask lv ≤ fullS rs mask' lv := by
  intro lv
  induction lv with
  | nil =>
    intro rs mask mask' hrs _ h _ _
    exact prod_masked_anti rs mask mask' hrs h
  | cons hd rest ihlv =>
    obtain ⟨mat, tr⟩ := hd
    intro rs mask mask' hrs hlv h hlen hshape
    obtain ⟨hmatlen, hrows, hshapeRest⟩ := hshape
    have htr : ratesBounded tr := hlv (mat, tr) (List.mem_cons_self _ _)
    have hrest : lvBounded rest := fun p hp => hlv p (List.mem_cons_of_mem _ hp)
    have base_anti : ∀ (rs2 : List ℚ) (mask2 : List Bool) (mat2 : Mat) (base base' : List Bool),
        ratesBounded rs2 → maskLE base base' →
        scenSum rs2 mask2 mat2 tr rest base' ≤ scenSum rs2 mask2 mat2 tr rest base := by
      intro rs2 mask2 mat2 base base' hrs2 hbb
      refine List.sum_le_sum fun ok _ => ?_
      refine mul_le_mul_of_nonneg_left ?_ (occProb_bounds hrs2 mask2 ok).1
      refine ihlv tr (orMask base' (connectedTargets tr.length mat2 ok))
        (orMask base (connectedTargets tr.length mat2 ok)) htr hrest
        (orMask_mono_left hbb _) ?_ hshapeRest
      rw [orMask_length]
      exact le_trans (min_le_right _ _) (connectedTargets_length_le _ _ _)
    have main : ∀ (mask0 mask0' : List Bool), maskLE mask0' mask0 →
        ∀ (rs2 : List ℚ) (mat2 : Mat) (base : List Bool), ratesBounded rs2 →
          mask0.length ≤ rs2.length → mask0.length ≤ mat2.length →
          (∀ row ∈ mat2, tr.length ≤ row.length) → base.length = tr.length →
          scenSum rs2 mask0 mat2 tr rest base ≤ scenSum rs2 mask0' mat2 tr rest base := by
      intro mask0 mask0' hm
      induction hm with
      | nil => intro rs2 mat2 base _ _ _ _ _; exact le_refl _
      | cons hxy htail ih2 =>
        rename_i x' x ms' ms
        intro rs2 mat2 base hrs2 hl1 hl2 hrows2 hbase
        cases rs2 with
        | nil => simp at hl1
        | cons r rs3 =>
          cases mat2 with
          | nil => simp at hl2
          | cons row mat3 =>
            obtain ⟨hr0, hr1⟩ := hrs2 r (List.mem_cons_self _ _)
            have hrs3 : ratesBounded rs3 := fun v hv => hrs2 v (List.mem_cons_of_mem _ hv)
            have hl1' : ms.length ≤ rs3.length := by simpa using hl1
            have hl2' : ms.length ≤ mat3.length := by simpa using hl2
            have hrows3 : ∀ rr ∈ mat3, tr.length ≤ rr.length :=
              fun rr hrr => hrows2 rr (List.mem_cons_of_mem _ hrr)
            have hrowlen : tr.length ≤ row.length := hrows2 row (List.mem_cons_self _ _)
            have hbase2 : (orMask base row).length = tr.length := by
              rw [orMask_length]
              omega
            rw [scenSum_cons, scenSum_cons]
            cases x with
            | false =>
              have hx' : x' = false := by
                cases x' with
                | false => rfl
                | true => exact absurd (hxy rfl) (by simp)
              rw [hx']
              simp only [Bool.false_eq_true, if_false]
              exact ih2 rs3 mat3 base hrs3 hl1' hl2' hrows3 hbase
            | true =>
              simp only [if_pos]
              cases x' with
              | true =>
                simp only [if_pos]
                have c1 := ih2 rs3 mat3 base hrs3 hl1' hl2' hrows3 hbase
                have c2 := ih2 rs3 mat3 (orMask base row) hrs3 hl1' hl2' hrows3 hbase2
                exact add_le_add (mul_le_mul_of_nonneg_left c1 hr0)
                  (mul_le_mul_of_nonneg_left c2 (by linarith))
              | false =>
                simp only [Bool.false_eq_true, if_false]
                have c1 := ih2 rs3 mat3 base hrs3 hl1' hl2' hrows3 hbase
                have c2 := ih2 rs3 mat3 (orMask base row) hrs3 hl1' hl2' hrows3 hbase2
                have c3 : scenSum rs3 ms' mat3 tr rest (orMask base row) ≤
                    scenSum rs3 ms' mat3 tr rest base :=
                  base_anti rs3 ms' mat3 base (orMask base row) hrs3
                    (maskLE_orMask_left base row (by omega))
                have e1 : r * scenSum rs3 ms mat3 tr rest base ≤
                    r * scenSum rs3 ms' mat3 tr rest base :=
                  mul_le_mul_of_nonneg_left c1 hr0
                have e2 : (1 - r) * scenSum rs3 ms mat3 tr rest (orMask base row) ≤
                    (1 - r) * scenSum rs3 ms' mat3 tr rest (orMask base row) :=
                  mul_le_mul_of_nonneg_left c2 (by linarith)
                have e3 : (1 - r) * scenSum rs3 ms' mat3 tr rest (orMask base row) ≤
                    (1 - r) * scenSum rs3 ms' mat3 tr rest base :=
                  mul_le_mul_of_nonneg_left c3 (by linarith)
                have c4 : r * scenSum rs3 ms' mat3 tr rest base +
                    (1 - r) * scenSum rs3 ms' mat3 tr rest base =
                    scenSum rs3 ms' mat3 tr rest base := by ring
                linarith
    rw [fullS_cons_scenSum, fullS_cons_scenSum]
    exact main mask mask' h rs mat (List.replicate tr.length false) hrs hlen
      (le_trans hlen hmatlen) hrows (by simp)

/-- Pointwise order on level lists: same connection matrices, pointwise
larger target failure rates. -/
def lvLE : List (Mat × List ℚ) → List (Mat × List ℚ) → Prop
  | [], [] => True
  | (mat, tr) :: rest, (mat', tr') :: rest' => mat = mat' ∧ ratesLE tr tr' ∧ lvLE rest rest'
  | _, _ => False

theorem prod_masked_mono : ∀ (rs rs' : List ℚ), ratesLE rs rs' → ratesBounded rs →
    ∀ c : List Bool, (maskedRates rs c).prod ≤ (maskedRates rs' c).prod := by
  intro rs rs' hle
  induction hle with
  | nil => intro _ c; exact le_refl _
  | cons hab htail ih =>
    rename_i r r' rs2 rs2'
    intro hrs c
    obtain ⟨hr0, hr1⟩ := hrs r (List.mem_cons_self _ _)
    have hrs2 : ratesBounded rs2 := fun v hv => hrs v (List.mem_cons_of_mem _ hv)
    have ih2 := ih hrs2
    cases c with
    | nil =>
      have h1 : maskedRates (r :: rs2) [] = [] := by simp [maskedRates]
      have h2 : maskedRates (r' :: rs2') [] = [] := by simp [maskedRates]
      rw [h1, h2]
    | cons b cs =>
      rw [maskedRates_cons, maskedRates_cons]
      cases b with
      | false => simpa using ih2 cs
      | true =>
        simp only [if_pos, List.prod_cons]
        have hP0 : 0 ≤ (maskedRates rs2 cs).prod :=
          (list_prod_bounds fun v hv => hrs2 v (maskedRates_subset v hv)).1
        exact mul_le_mul hab (ih2 cs) hP0 (le_trans hr0 hab)

/-- Monotonicity in every failure rate: raising any rates pointwise
(sources or any downstream stage) can only increase the unguarded
failure sum. -/
theorem fullS_mono : ∀ (lv lv' : List (Mat × List ℚ)) (rs rs' : List ℚ) (mask : List Bool),
    lvLE lv lv' → ratesLE rs rs' → ratesBounded rs → ratesBounded rs' →
    lvBounded lv → lvBounded lv' → mask.length ≤ rs.length →
    lvShape rs.length lv → lvShape rs'.length lv' →
    fullS rs mask lv ≤ fullS rs' mask lv' := by
  intro lv
  induction lv with
  | nil =>
    intro lv' rs rs' mask hlv hle hrs _ _ _ _ _ _
    cases lv' with
    | nil => exact prod_masked_mono rs rs' hle hrs mask
    | cons hd t =>
      obtain ⟨m2, t2⟩ := hd
      exact hlv.elim
  | cons hd rest ihlv =>
    obtain ⟨mat, tr⟩ := hd
    intro lv' rs rs' mask hlv hle hrs hrs' hb hb' hlen hsh hsh'
    cases lv' with
    | nil => exact hlv.elim
    | cons hd' rest' =>
      obtain ⟨mat', tr'⟩ := hd'
      obtain ⟨hmeq, htrle, hrestle⟩ := hlv
      subst hmeq
      obtain ⟨hmatlen, hrows, hshRest⟩ := hsh
      obtain ⟨hmatlen', hrows', hshRest'⟩ := hsh'
      have htrB : ratesBounded tr := hb (mat, tr) (List.mem_cons_self _ _)
      have htrB' : ratesBounded tr' := hb' (mat, tr') (List.mem_cons_self _ _)
      have hrestB : lvBounded rest := fun p hp => hb p (List.mem_cons_of_mem _ hp)
      have hrestB' : lvBounded rest' := fun p hp => hb' p (List.mem_cons_of_mem _ hp)
      have htrlen : tr.length = tr'.length := ratesLE_length htrle
      have base_anti' : ∀ (rs2 : List ℚ) (mask2 : List Bool) (mat2 : Mat)
          (base base' : List Bool), ratesBounded rs2 → maskLE base base' →
          scenSum rs2 mask2 mat2 tr' rest' base' ≤ scenSum rs2 mask2 mat2 tr' rest' base := by
        intro rs2 mask2 mat2 base base' hrs2 hbb
        refine List.sum_le_sum fun ok _ => ?_
        refine mul_le_mul_of_nonneg_left ?_ (occProb_bounds hrs2 mask2 ok).1
        refine fullS_anti rest' tr' (orMask base' (connectedTargets tr'.length mat2 ok))
          (orMask base (connectedTargets tr'.length mat2 ok)) htrB' hrestB'
          (orMask_mono_left hbb _) ?_ hshRest'
        rw [orMask_length]
        exact le_trans (min_le_right _ _) (connectedTargets_length_le _ _ _)
      have main : ∀ (mask0 : List Bool) (rs2 rs2' : List ℚ) (mat2 : Mat) (base : List Bool),
          ratesLE rs2 rs2' → ratesBounded rs2 → ratesBounded rs2' →
          mask0.length ≤ rs2.length → mask0.length ≤ mat2.length →
          (∀ row ∈ mat2, tr.length ≤ row.length) → base.length = tr.length →
          scenSum rs2 mask0 mat2 tr rest base ≤ scenSum rs2' mask0 mat2 tr' rest' base := by
        intro mask0
        induction mask0 with
        | nil =>
          intro rs2 rs2' mat2 base _ _ _ _ _ _ hbase
          rw [scenSum_nil_mask _ _ _ _ _ (le_of_eq hbase),
            scenSum_nil_mask _ _ _ _ _ (by rw [← htrlen]; exact le_of_eq hbase)]
          exact ihlv rest' tr tr' base hrestle htrle htrB htrB' hrestB hrestB'
            (le_of_eq hbase) hshRest hshRest'
        | cons m ms ih2 =>
          intro rs2 rs2' mat2 base hle2 hB2 hB2' hl1 hl2 hrows2 hbase
          cases hle2 with
          | nil => simp at hl1
          | cons hrr htail2 =>
            rename_i r r' rs3 rs3'
            cases mat2 with
            | nil => simp at hl2
            | cons row mat3 =>
              obtain ⟨hr0, hr1⟩ := hB2 r (List.mem_cons_self _ _)
              obtain ⟨hr0', hr1'⟩ := hB2' r' (List.mem_cons_self _ _)
              have hB3 : ratesBounded rs3 := fun v hv => hB2 v (List.mem_cons_of_mem _ hv)
              have hB3' : ratesBounded rs3' := fun v hv => hB2' v (List.mem_cons_of_mem _ hv)
              have hl1' : ms.length ≤ rs3.length := by simpa using hl1
              have hl2' : ms.length ≤ mat3.length := by simpa using hl2
              have hrows3 : ∀ rr ∈ mat3, tr.length ≤ rr.length :=
                fun rr hrr => hrows2 rr (List.mem_cons_of_mem _ hrr)
              have hrowlen : tr.length ≤ row.length := hrows2 row (List.mem_cons_self _ _)
              have hbase2 : (orMask base row).length = tr.length := by
                rw [orMask_length]
                omega
              rw [scenSum_cons, scenSum_cons]
              cases m with
              | false =>
                simp only [Bool.false_eq_true, if_false]
                exact ih2 rs3 rs3' mat3 base htail2 hB3 hB3' hl1' hl2' hrows3 hbase
              | true =>
                simp only [if_pos]
                have c1 := ih2 rs3 rs3' mat3 base htail2 hB3 hB3' hl1' hl2' hrows3 hbase
                have c2 := ih2 rs3 rs3' mat3 (orMask base row) htail2 hB3 hB3' hl1' hl2'
                  hrows3 hbase2
                have c3 : scenSum rs3' ms mat3 tr' rest' (orMask base row) ≤
                    scenSum rs3' ms mat3 tr' rest' base :=
                  base_anti' rs3' ms mat3 base (orMask base row) hB3'
                    (maskLE_orMask_left base row (by omega))
                have f1 : r * scenSum rs3 ms mat3 tr rest base ≤
                    r * scenSum rs3' ms mat3 tr' rest' base :=
                  mul_le_mul_of_nonneg_left c1 hr0
                have f2 : (1 - r) * scenSum rs3 ms mat3 tr rest (orMask base row) ≤
                    (1 - r) * scenSum rs3' ms mat3 tr' rest' (orMask base row) :=
                  mul_le_mul_of_nonneg_left c2 (by linarith)
                have k1 : 0 ≤ (r' - r) *
                    (scenSum rs3' ms mat3 tr' rest' base -
                      scenSum rs3' ms mat3 tr' rest' (orMask base row)) :=
                  mul_nonneg (by linarith) (by linarith)
                nlinarith [f1, f2, k1]
      rw [fullS_cons_scenSum, fullS_cons_scenSum]
      rw [show List.replicate tr'.length false = List.replicate tr.length false by
        rw [htrlen]]
      exact main mask rs rs' mat (List.replicate tr.length false) hle hrs hrs' hlen
        (le_trans hlen hmatlen) hrows (by simp)

/-- C5: raising any unit failure rate (in particular any single unit's
rate, holding everything else fixed: the hypotheses allow any pointwise
increase within [0, 1], with identical unit lists and edges) never
decreases the failure probability computed by the engine, and since
log10 is monotone on positive reals the reported calc_failure_rate
value never decreases either. -/
theorem claim_C5_monotone_rates :
    (∀ (mat : Mat) (tr tr' rs rs' : List ℚ) (mask : List Bool)
        (rest rest' : List (Mat × List ℚ)),
      ratesLE rs rs' → ratesLE tr tr' → lvLE rest rest' →
      ratesBounded rs → ratesBounded rs' → ratesBounded tr → ratesBounded tr' →
      lvBounded rest → lvBounded rest' →
      mask.length ≤ rs.length →
      lvShape rs.length ((mat, tr) :: rest) → lvShape rs'.length ((mat, tr') :: rest') →
      branch true rs mask ((mat, tr) :: rest) ≤ branch true rs' mask ((mat, tr') :: rest')) ∧
    (∀ p p' : ℚ, 0 < p → p ≤ p' → Real.logb 10 (p : ℝ) ≤ Real.logb 10 (p' : ℝ)) := by
  constructor
  · intro mat tr tr' rs rs' mask rest rest' hrsLE htrLE hrestLE hrsB hrsB' htrB htrB'
      hrestB hrestB' hlen hsh hsh'
    rw [branch_true_eq_fullS, branch_true_eq_fullS]
    refine fullS_mono ((mat, tr) :: rest) ((mat, tr') :: rest') rs rs' mask
      ⟨rfl, htrLE, hrestLE⟩ hrsLE hrsB hrsB' ?_ ?_ hlen hsh hsh'
    · intro p hp
      rcases List.mem_cons.mp hp with rfl | hp2
      · exact htrB
      · exact hrestB p hp2
    · intro p hp
      rcases List.mem_cons.mp hp with rfl | hp2
      · exact htrB'
      · exact hrestB' p hp2
  · intro p p' hp hpp'
    refine Real.logb_le_logb_of_le (by norm_num) ?_ ?_
    · exact_mod_cast hp
    · exact_mod_cast hpp'

theorem claim_C5_witness :
    ratesLE [(1 : ℚ)/4] [(1 : ℚ)/3] ∧ ratesLE [(1 : ℚ)/5] [(1 : ℚ)/2] ∧
    branch true [(1 : ℚ)/4] [true] [([[true]], [(1 : ℚ)/5])] ≤
      branch true [(1 : ℚ)/3] [true] [([[true]], [(1 : ℚ)/2])] ∧
    ((0 : ℚ) < 1/2 ∧ (1 : ℚ)/2 ≤ 3/4) ∧
    Real.logb 10 (((1 : ℚ)/2 : ℚ) : ℝ) ≤ Real.logb 10 (((3 : ℚ)/4 : ℚ) : ℝ) := by
  have hle1 : ratesLE [(1 : ℚ)/4] [(1 : ℚ)/3] := by
    refine List.Forall₂.cons (by norm_num) List.Forall₂.nil
  have hle2 : ratesLE [(1 : ℚ)/5] [(1 : ℚ)/2] := by
    refine List.Forall₂.cons (by norm_num) List.Forall₂.nil
  have hbnd : ∀ q : ℚ, 0 ≤ q → q ≤ 1 → ratesBounded [q] := by
    intro q h0 h1 r hr
    rw [List.mem_singleton] at hr
    rw [hr]
    exact ⟨h0, h1⟩
  have hlvB : lvBounded [] := by
    intro p hp
    simp at hp
  have hshape : ∀ q : ℚ, lvShape 1 [([[true]], [q])] := by
    intro q
    refine ⟨by norm_num, ?_, trivial⟩
    intro row hr
    rw [List.mem_singleton] at hr
    rw [hr]
    norm_num
  refine ⟨hle1, hle2, ?_, ⟨by norm_num, by norm_num⟩, ?_⟩
  · exact claim_C5_monotone_rates.1 [[true]] [(1 : ℚ)/5] [(1 : ℚ)/2] [(1 : ℚ)/4] [(1 : ℚ)/3]
      [true] [] [] hle1 hle2 trivial (hbnd _ (by norm_num) (by norm_num))
      (hbnd _ (by norm_num) (by norm_num)) (hbnd _ (by norm_num) (by norm_num))
      (hbnd _ (by norm_num) (by norm_num)) hlvB hlvB (by simp) (hshape _) (hshape _)
  · exact claim_C5_monotone_rates.2 (1/2) (3/4) (by norm_num) (by norm_num)

end GNC
